import Mathlib

/-!
Verification of the `prioritize` task-prioritization library.

We give a shallow embedding of the queue data structures and the engine:
pure Lean functions over explicit state records, translated from the Go
source.  Machine integers are modelled as `Int` (Go `int`) and `Nat`
(Go `uint64` identifiers and non-negative indices); fallible operations
return `Except` / `Option`; a blocking pop is modelled by a dedicated
result constructor.
-/

namespace Prioritize

/-- Errors of the library, from `common/errors.go` and `engine.go`.
`blocked` is not a Go error value: it models a `PopOrWaitTillClose`
call that suspends on the condition variable (no item available). -/
inductive QErr where
  | full
  | closed
  | priorityOutOfRange
  | paramShouldBePositive
  deriving DecidableEq, Repr

/-- QItem from `qitem.go`: a 64-bit identifier plus a signed priority. -/
structure QItem where
  id : Nat
  priority : Int
  deriving DecidableEq, Repr

/-- Sentinel from `qitem.go`: `QItem{priority: math.MinInt32}`. -/
def MinQItem : QItem := { id := 0, priority := -(2 ^ 31) }

/-- Result of a `PopOrWaitTillClose` call on a queue with state type `σ`:
either an item together with the new state, the closed error, a call that
suspends waiting (`blocked`), or a runtime fault (nil dereference /
panic). -/
inductive PopRes (σ : Type) where
  | item : QItem → σ → PopRes σ
  | closed : PopRes σ
  | blocked : PopRes σ
  | fault : PopRes σ

/-! ## Segmented buffer: `linkedslice/internalslice.go` -/

/-- Segment capacity, `internalSliceSize` in `internalslice.go`. -/
def internalSliceSize : Nat := 256

/-- A fixed-capacity one-way segment of IDs (`internalSlice`).
`head` is the next push index, `tail` the next pop index; the backing
array is modelled as a function from index to stored ID. -/
structure InternalSlice where
  head : Nat
  tail : Nat
  sizeLimit : Nat
  arr : Nat → Nat

/-- A fresh segment as produced by the segment pool (cursors zeroed). -/
def newInternalSlice : InternalSlice :=
  { head := 0, tail := 0, sizeLimit := internalSliceSize, arr := fun _ => 0 }

namespace InternalSlice

/-- `canPush` from `internalslice.go`. -/
def canPush (s : InternalSlice) : Bool :=
  s.head < s.sizeLimit

/-- `isEmpty` from `internalslice.go`. -/
def isEmpty (s : InternalSlice) : Bool :=
  s.head == 0 || s.tail == s.head

/-- `slotsUsedUp` from `internalslice.go`. -/
def slotsUsedUp (s : InternalSlice) : Bool :=
  s.tail == s.sizeLimit

/-- The state change of `push` (write at `head`, advance `head`);
the caller has already established `canPush`. -/
def pushRaw (s : InternalSlice) (n : Nat) : InternalSlice :=
  { s with arr := fun j => if j = s.head then n else s.arr j, head := s.head + 1 }

/-- `push` from `internalslice.go`: fails with `errSliceIsFull` when the
segment cannot admit more items. -/
def push (s : InternalSlice) (n : Nat) : Option InternalSlice :=
  if s.canPush then some (s.pushRaw n) else none

/-- `pop` from `internalslice.go`: fails with `errSliceIsEmpty` on an
empty segment, otherwise reads at `tail` and advances `tail`. -/
def pop (s : InternalSlice) : Option (Nat × InternalSlice) :=
  if s.isEmpty then none
  else some (s.arr s.tail, { s with tail := s.tail + 1 })

/-- The IDs currently stored in a segment, oldest first: the entries at
indices `tail, tail+1, …, head-1`. -/
def contents (s : InternalSlice) : List Nat :=
  (List.range' s.tail (s.head - s.tail)).map s.arr

end InternalSlice

/-! ## Segmented buffer holder: `linkedslice/linkedslice.go` -/

/-- LinkedSlice: an unbounded FIFO of IDs built from a chain of segments.
The chain is the list of live segments, pop end (the Go `head` pointer)
first and push end (the Go `pushPointer`) last; the empty list models
both pointers being nil.  The `running` flag is from the close-aware
revision of `LinkedSlice` in `linkedslice/internalslice_test.go` (second
staged document; exercised by `TestLinkedSliceAfterClose`): `running`
starts true and `Close` sets it false. -/
structure LinkedSlice where
  segs : List InternalSlice
  running : Bool

/-- `NewLinkedSlice`: no segments yet, open. -/
def NewLinkedSlice : LinkedSlice :=
  { segs := [], running := true }

/-- `checkHeadExist` from `linkedslice.go`: allocate the first segment
when none exists. -/
def checkHeadExist (ls : LinkedSlice) : LinkedSlice :=
  if ls.segs.isEmpty then { ls with segs := [newInternalSlice] } else ls

/-- The push path of `LinkedSlice.PushOrError` on the non-empty chain:
if the push-pointer (last) segment cannot admit more items, link a fresh
segment after it; then write the ID at that segment's `head` cursor. -/
def pushIntoChain (n : Nat) : List InternalSlice → List InternalSlice
  | [] => [newInternalSlice.pushRaw n]
  | [s] =>
      if s.canPush then [s.pushRaw n]
      else [s, newInternalSlice.pushRaw n]
  | s :: s2 :: rest => s :: pushIntoChain n (s2 :: rest)

namespace LinkedSlice

/-- `LinkedSlice.PushOrError` from the close-aware revision in
`linkedslice/internalslice_test.go` (second staged document): fails with
`ErrQueueIsClosed` when not running; otherwise ensures a head segment
exists and pushes the item's ID into the push-pointer segment, linking a
fresh segment first when it cannot admit more items. -/
def pushOrError (ls : LinkedSlice) (item : QItem) : Except QErr LinkedSlice :=
  if ¬ ls.running then .error .closed
  else
    let ls1 := checkHeadExist ls
    .ok { ls1 with segs := pushIntoChain item.id ls1.segs }

/-- `LinkedSlice.PopOrWaitTillClose` from the close-aware revision in
`linkedslice/internalslice_test.go` (second staged document): returns
`ErrQueueIsClosed` when not running, waits while the head segment is
empty, otherwise reads at the head segment's `tail` cursor and returns
`QItem{ID: result}` (priority zero); a segment whose slots are used up is
unlinked and returned to the pool. -/
def popOrWaitTillClose (ls : LinkedSlice) : PopRes LinkedSlice :=
  if ¬ ls.running then .closed
  else
    let ls1 := checkHeadExist ls
    match ls1.segs with
    | [] => .blocked
    | s :: rest =>
        if s.isEmpty then .blocked
        else
          let result := s.arr s.tail
          let s' : InternalSlice := { s with tail := s.tail + 1 }
          let segs' := if s'.slotsUsedUp then rest else s' :: rest
          .item { id := result, priority := 0 } { ls1 with segs := segs' }

/-- `LinkedSlice.Close` from the close-aware revision in
`linkedslice/internalslice_test.go` (second staged document): set the
running flag false (the broadcast is a no-op in the sequential model). -/
def close (ls : LinkedSlice) : LinkedSlice :=
  { ls with running := false }

end LinkedSlice

/-- All IDs buffered in a chain of segments, oldest first. -/
def chainToList (l : List InternalSlice) : List Nat :=
  (l.map InternalSlice.contents).flatten

/-- All IDs currently buffered in a LinkedSlice, oldest first. -/
def LinkedSlice.toList (ls : LinkedSlice) : List Nat :=
  chainToList ls.segs

/-- Well-formedness of one segment: the pool constant capacity, and the
pop cursor never past the push cursor, which never passes capacity. -/
def SegWF (s : InternalSlice) : Prop :=
  s.sizeLimit = internalSliceSize ∧ s.tail ≤ s.head ∧ s.head ≤ s.sizeLimit

/-- Well-formedness of the non-head part of a segment chain: every
segment is well formed with pop cursor still at zero, and every segment
but the last is full. -/
def TailOk : List InternalSlice → Prop
  | [] => True
  | s :: rest =>
      SegWF s ∧ s.tail = 0 ∧ (rest = [] ∨ s.head = s.sizeLimit) ∧ TailOk rest

/-- Well-formedness of a whole segment chain: the head segment is well
formed and not yet exhausted (otherwise it would have been unlinked),
it is full unless it is also the push-pointer segment, and the rest of
the chain satisfies `TailOk`. -/
def ChainOk : List InternalSlice → Prop
  | [] => True
  | s :: rest =>
      SegWF s ∧ s.tail < s.sizeLimit ∧ (rest = [] ∨ s.head = s.sizeLimit) ∧
        TailOk rest

/-- Push a list of IDs into a LinkedSlice; `none` if any push fails. -/
def lsPushAll (ls : LinkedSlice) : List Nat → Option LinkedSlice
  | [] => some ls
  | n :: rest =>
      match ls.pushOrError { id := n, priority := 0 } with
      | .ok ls' => lsPushAll ls' rest
      | .error _ => none

/-- Pop `n` IDs from a LinkedSlice, collecting them in order; `none` if
any pop does not return an item. -/
def lsPopN (ls : LinkedSlice) : Nat → Option (List Nat × LinkedSlice)
  | 0 => some ([], ls)
  | n + 1 =>
      match ls.popOrWaitTillClose with
      | .item it ls' =>
          match lsPopN ls' n with
          | some (ids, ls'') => some (it.id :: ids, ls'')
          | none => none
      | _ => none

/-! ## Round-robin multi-queue: `roundrobin/roundrobin.go` -/

/-- Downward scan `i, i-1, …, 0` over the occupancy counters, returning
the first index whose counter is positive, or `-1` when none is (the
`newPos` result of the first cursor-update loop in
`RoundRobinPriorityQueue.PopOrWaitTillClose`). -/
def findFirstPos (counts : List Int) : Nat → Int
  | 0 => if counts.getD 0 0 > 0 then 0 else -1
  | i + 1 =>
      if counts.getD (i + 1) 0 > 0 then ((i + 1 : Nat) : Int)
      else findFirstPos counts i

/-- Downward scan `i, i-1, …, lo` over the occupancy counters, returning
the first index whose counter is positive, or `-1` (the second
cursor-update loop, which stops at the old cursor inclusive). -/
def findFirstPosGE (counts : List Int) (lo : Nat) : Nat → Int
  | 0 => if lo = 0 ∧ counts.getD 0 0 > 0 then 0 else -1
  | i + 1 =>
      if i + 1 < lo then -1
      else if counts.getD (i + 1) 0 > 0 then ((i + 1 : Nat) : Int)
      else findFirstPosGE counts lo i

/-- RoundRobinPriorityQueue state from `roundrobin.go`.  The per-priority
substrates are `Option` because the Go slice holds nil pointers until the
first push to that priority. -/
structure RoundRobinPriorityQueue where
  numberOfTasksInEachQueue : List Int
  queues : List (Option LinkedSlice)
  limitPriority : Int
  size : Int
  sizeLimit : Int
  currentPriorityToRetrieve : Int
  running : Bool

/-- `NewRoundRobinPriorityQueue` from `roundrobin.go`. -/
def NewRoundRobinPriorityQueue (sizeLimit numOfPriority : Int) :
    Except QErr RoundRobinPriorityQueue :=
  if sizeLimit ≤ 0 ∨ numOfPriority ≤ 0 then .error .paramShouldBePositive
  else
    .ok {
      numberOfTasksInEachQueue := List.replicate numOfPriority.toNat 0
      queues := List.replicate numOfPriority.toNat none
      limitPriority := numOfPriority
      size := 0
      sizeLimit := sizeLimit
      currentPriorityToRetrieve := -1
      running := true }

namespace RoundRobinPriorityQueue

/-- `RoundRobinPriorityQueue.PushOrError` from `roundrobin.go`. -/
def pushOrError (rr : RoundRobinPriorityQueue) (item : QItem) :
    Except QErr RoundRobinPriorityQueue :=
  if item.priority < 0 ∨ item.priority ≥ rr.limitPriority then
    .error .priorityOutOfRange
  else if ¬ rr.running then .error .closed
  else if rr.size = rr.sizeLimit then .error .full
  else
    let p := item.priority.toNat
    let q := (rr.queues.getD p none).getD NewLinkedSlice
    match q.pushOrError item with
    | .error e => .error e
    | .ok q' =>
        let cursor :=
          if rr.size = 0 then item.priority else rr.currentPriorityToRetrieve
        .ok { rr with
          queues := rr.queues.set p (some q')
          currentPriorityToRetrieve := cursor
          numberOfTasksInEachQueue :=
            rr.numberOfTasksInEachQueue.set p
              (rr.numberOfTasksInEachQueue.getD p 0 + 1)
          size := rr.size + 1 }

/-- `RoundRobinPriorityQueue.PopOrWaitTillClose` from `roundrobin.go`:
pop from the cursor priority's substrate, then advance the cursor with
the two-pass downward sweep. -/
def popOrWaitTillClose (rr : RoundRobinPriorityQueue) :
    PopRes RoundRobinPriorityQueue :=
  if ¬ rr.running then .closed
  else if rr.size = 0 then .blocked
  else
    match rr.queues.getD rr.currentPriorityToRetrieve.toNat none with
    | none => .fault
    | some q =>
        match q.popOrWaitTillClose with
        | .closed => .closed
        | .blocked => .blocked
        | .fault => .fault
        | .item qitem q' =>
            let cur := rr.currentPriorityToRetrieve
            let result : QItem := { id := qitem.id, priority := cur }
            let counts' :=
              rr.numberOfTasksInEachQueue.set cur.toNat
                (rr.numberOfTasksInEachQueue.getD cur.toNat 0 - 1)
            let size' := rr.size - 1
            let cursor' :=
              if size' = 0 then -1
              else
                let newPos :=
                  if cur - 1 < 0 then -1
                  else findFirstPos counts' (cur - 1).toNat
                if newPos = -1 then
                  findFirstPosGE counts' cur.toNat (rr.limitPriority - 1).toNat
                else newPos
            .item result { rr with
              queues := rr.queues.set cur.toNat (some q')
              numberOfTasksInEachQueue := counts'
              size := size'
              currentPriorityToRetrieve := cursor' }

/-- `RoundRobinPriorityQueue.Close` from `roundrobin.go`: set running
false and close every non-nil substrate. -/
def close (rr : RoundRobinPriorityQueue) : RoundRobinPriorityQueue :=
  { rr with
    running := false
    queues := rr.queues.map (Option.map LinkedSlice.close) }

end RoundRobinPriorityQueue

/-- The whole state after a successful round-robin push whose substrate
push produced the new substrate `q'`. -/
def rrPushState (rr : RoundRobinPriorityQueue) (item : QItem)
    (q' : LinkedSlice) : RoundRobinPriorityQueue :=
  { rr with
    queues := rr.queues.set item.priority.toNat (some q')
    currentPriorityToRetrieve :=
      if rr.size = 0 then item.priority else rr.currentPriorityToRetrieve
    numberOfTasksInEachQueue :=
      rr.numberOfTasksInEachQueue.set item.priority.toNat
        (rr.numberOfTasksInEachQueue.getD item.priority.toNat 0 + 1)
    size := rr.size + 1 }

/-- The occupancy counters after a successful round-robin pop (the
decrement of `numberOfTasksInEachQueue[currentPriorityToRetrieve]`). -/
def rrCountsAfter (rr : RoundRobinPriorityQueue) : List Int :=
  rr.numberOfTasksInEachQueue.set rr.currentPriorityToRetrieve.toNat
    (rr.numberOfTasksInEachQueue.getD rr.currentPriorityToRetrieve.toNat 0 - 1)

/-- The cursor after a successful round-robin pop: `-1` when the queue
became empty, otherwise the result of the two-pass downward sweep. -/
def rrCursorAfter (rr : RoundRobinPriorityQueue) : Int :=
  if rr.size - 1 = 0 then -1
  else
    if (if rr.currentPriorityToRetrieve - 1 < 0 then (-1 : Int)
        else findFirstPos (rrCountsAfter rr)
          (rr.currentPriorityToRetrieve - 1).toNat) = -1
    then findFirstPosGE (rrCountsAfter rr) rr.currentPriorityToRetrieve.toNat
      (rr.limitPriority - 1).toNat
    else (if rr.currentPriorityToRetrieve - 1 < 0 then (-1 : Int)
        else findFirstPos (rrCountsAfter rr)
          (rr.currentPriorityToRetrieve - 1).toNat)

/-- The whole state after a successful round-robin pop whose substrate
pop produced the new substrate `q'`. -/
def rrPopState (rr : RoundRobinPriorityQueue) (q' : LinkedSlice) :
    RoundRobinPriorityQueue :=
  { rr with
    queues := rr.queues.set rr.currentPriorityToRetrieve.toNat (some q')
    numberOfTasksInEachQueue := rrCountsAfter rr
    size := rr.size - 1
    currentPriorityToRetrieve := rrCursorAfter rr }

/-! ## Strict multi-queue: `priority/priority.go` -/

/-- PriorityQueue (STRICT variant) state from `priority.go`. -/
structure PriorityQueue where
  numberOfTasksInEachQueue : List Int
  queues : List (Option LinkedSlice)
  limitPriority : Int
  size : Int
  sizeLimit : Int
  running : Bool

/-- `NewPriorityQueue` from `priority.go`. -/
def NewPriorityQueue (sizeLimit numOfPriority : Int) :
    Except QErr PriorityQueue :=
  if sizeLimit ≤ 0 ∨ numOfPriority ≤ 0 then .error .paramShouldBePositive
  else
    .ok {
      numberOfTasksInEachQueue := List.replicate numOfPriority.toNat 0
      queues := List.replicate numOfPriority.toNat none
      limitPriority := numOfPriority
      size := 0
      sizeLimit := sizeLimit
      running := true }

namespace PriorityQueue

/-- `PriorityQueue.PushOrError` from `priority.go`. -/
def pushOrError (pq : PriorityQueue) (item : QItem) :
    Except QErr PriorityQueue :=
  if item.priority < 0 ∨ item.priority ≥ pq.limitPriority then
    .error .priorityOutOfRange
  else if ¬ pq.running then .error .closed
  else if pq.size = pq.sizeLimit then .error .full
  else
    let p := item.priority.toNat
    let q := (pq.queues.getD p none).getD NewLinkedSlice
    match q.pushOrError item with
    | .error e => .error e
    | .ok q' =>
        .ok { pq with
          queues := pq.queues.set p (some q')
          numberOfTasksInEachQueue :=
            pq.numberOfTasksInEachQueue.set p
              (pq.numberOfTasksInEachQueue.getD p 0 + 1)
          size := pq.size + 1 }

/-- `PriorityQueue.PopOrWaitTillClose` from `priority.go`: scan from
`limitPriority-1` downward for the first priority with a positive
counter, then pop from that substrate. -/
def popOrWaitTillClose (pq : PriorityQueue) : PopRes PriorityQueue :=
  if ¬ pq.running then .closed
  else if pq.size = 0 then .blocked
  else
    let priorityToRetrieve :=
      findFirstPos pq.numberOfTasksInEachQueue (pq.limitPriority - 1).toNat
    match pq.queues.getD priorityToRetrieve.toNat none with
    | none => .fault
    | some q =>
        match q.popOrWaitTillClose with
        | .closed => .closed
        | .blocked => .blocked
        | .fault => .fault
        | .item qitem q' =>
            let result : QItem := { id := qitem.id, priority := priorityToRetrieve }
            .item result { pq with
              queues := pq.queues.set priorityToRetrieve.toNat (some q')
              numberOfTasksInEachQueue :=
                pq.numberOfTasksInEachQueue.set priorityToRetrieve.toNat
                  (pq.numberOfTasksInEachQueue.getD priorityToRetrieve.toNat 0 - 1)
              size := pq.size - 1 }

/-- `PriorityQueue.Close` from `priority.go`. -/
def close (pq : PriorityQueue) : PriorityQueue :=
  { pq with
    running := false
    queues := pq.queues.map (Option.map LinkedSlice.close) }

end PriorityQueue

/-- The whole state after a successful STRICT push whose substrate push
produced the new substrate `q'`. -/
def pqPushState (pq : PriorityQueue) (item : QItem) (q' : LinkedSlice) :
    PriorityQueue :=
  { pq with
    queues := pq.queues.set item.priority.toNat (some q')
    numberOfTasksInEachQueue :=
      pq.numberOfTasksInEachQueue.set item.priority.toNat
        (pq.numberOfTasksInEachQueue.getD item.priority.toNat 0 + 1)
    size := pq.size + 1 }

/-- The priority the STRICT pop retrieves from: the downward scan from
`limitPriority - 1` for the first positive counter. -/
def pqPopP (pq : PriorityQueue) : Int :=
  findFirstPos pq.numberOfTasksInEachQueue (pq.limitPriority - 1).toNat

/-- The whole state after a successful STRICT pop whose substrate pop
produced the new substrate `q'`. -/
def pqPopState (pq : PriorityQueue) (q' : LinkedSlice) : PriorityQueue :=
  { pq with
    queues := pq.queues.set (pqPopP pq).toNat (some q')
    numberOfTasksInEachQueue :=
      pq.numberOfTasksInEachQueue.set (pqPopP pq).toNat
        (pq.numberOfTasksInEachQueue.getD (pqPopP pq).toNat 0 - 1)
    size := pq.size - 1 }

/-! ## Scenario drivers -/

/-- Push a list of items into a round-robin queue; `none` if any push
fails. -/
def rrPushAll (rr : RoundRobinPriorityQueue) :
    List QItem → Option RoundRobinPriorityQueue
  | [] => some rr
  | it :: rest =>
      match rr.pushOrError it with
      | .ok rr' => rrPushAll rr' rest
      | .error _ => none

/-- Pop `n` items from a round-robin queue, collecting them in order;
`none` if any pop does not return an item. -/
def rrPopN (rr : RoundRobinPriorityQueue) :
    Nat → Option (List QItem × RoundRobinPriorityQueue)
  | 0 => some ([], rr)
  | n + 1 =>
      match rr.popOrWaitTillClose with
      | .item it rr' =>
          match rrPopN rr' n with
          | some (its, rr'') => some (it :: its, rr'')
          | none => none
      | _ => none

/-- Push a list of items into a strict queue; `none` if any push fails. -/
def pqPushAll (pq : PriorityQueue) : List QItem → Option PriorityQueue
  | [] => some pq
  | it :: rest =>
      match pq.pushOrError it with
      | .ok pq' => pqPushAll pq' rest
      | .error _ => none

/-- Pop `n` items from a strict queue, collecting them in order. -/
def pqPopN (pq : PriorityQueue) :
    Nat → Option (List QItem × PriorityQueue)
  | 0 => some ([], pq)
  | n + 1 =>
      match pq.popOrWaitTillClose with
      | .item it pq' =>
          match pqPopN pq' n with
          | some (its, pq'') => some (it :: its, pq'')
          | none => none
      | _ => none

/-- Scenario S1: `N = 16`, `sizeLimit = 2048`, push `(1,8), (2,13),
(3,5), (4,13)`, then pop four times; `none` when any step fails. -/
def rrScenarioS1 : Option (List QItem) :=
  match NewRoundRobinPriorityQueue 2048 16 with
  | .error _ => none
  | .ok rr0 =>
      match rrPushAll rr0
          [⟨1, 8⟩, ⟨2, 13⟩, ⟨3, 5⟩, ⟨4, 13⟩] with
      | none => none
      | some rr1 =>
          match rrPopN rr1 4 with
          | some (its, _) => some its
          | none => none

/-- Scenario S2: `N = 16`, `sizeLimit = 2048`, push `(1,8), (2,13),
(3,13)`, then pop three times. -/
def pqScenarioS2 : Option (List QItem) :=
  match NewPriorityQueue 2048 16 with
  | .error _ => none
  | .ok pq0 =>
      match pqPushAll pq0 [⟨1, 8⟩, ⟨2, 13⟩, ⟨3, 13⟩] with
      | none => none
      | some pq1 =>
          match pqPopN pq1 3 with
          | some (its, _) => some its
          | none => none

/-! ## Heap priority queue: `heap/heap.go` -/

/-- HeapPriorityQueue state from `heap.go`: a bounded array-backed
max-heap keyed on priority. -/
structure HeapPriorityQueue where
  arr : List QItem
  size : Nat
  sizeLimit : Nat
  running : Bool
  deriving DecidableEq, Repr

/-- `NewHeapPriorityQueue` from `heap.go`: every slot starts as the
`MinQItem` sentinel. -/
def NewHeapPriorityQueue (sizeLimit : Nat) : HeapPriorityQueue :=
  { arr := List.replicate sizeLimit MinQItem
    size := 0
    sizeLimit := sizeLimit
    running := true }

namespace HeapPriorityQueue

/-- `parent` from `heap.go`: `(index-1)/2` (Go truncating division agrees
with Nat subtraction/division on the indices that occur). -/
def parent (index : Nat) : Nat := (index - 1) / 2

/-- `leftchild` from `heap.go`. -/
def leftchild (index : Nat) : Nat := 2 * index + 1

/-- `rightchild` from `heap.go`. -/
def rightchild (index : Nat) : Nat := 2 * index + 2

/-- `leaf` from `heap.go`. -/
def leaf (hpq : HeapPriorityQueue) (index : Nat) : Bool :=
  hpq.size / 2 ≤ index ∧ index ≤ hpq.size

/-- `swap` from `heap.go`. -/
def swap (hpq : HeapPriorityQueue) (first second : Nat) : HeapPriorityQueue :=
  { hpq with arr := (hpq.arr.set first (hpq.arr.getD second MinQItem)).set second (hpq.arr.getD first MinQItem) }

/-- `greater` from `heap.go`. -/
def greater (hpq : HeapPriorityQueue) (first second : Nat) : Bool :=
  (hpq.arr.getD first MinQItem).priority >
    (hpq.arr.getD second MinQItem).priority

/-- `up` from `heap.go`: sift up while strictly greater than the
parent. -/
def up (hpq : HeapPriorityQueue) (index : Nat) : HeapPriorityQueue :=
  if h : hpq.greater index (parent index) then
    up (hpq.swap index (parent index)) (parent index)
  else hpq
termination_by index
decreasing_by
  have hix : index ≠ 0 := by
    intro h0
    subst h0
    simp [HeapPriorityQueue.greater, parent] at h
  simp only [parent]
  omega

/-- The `largest` computed inside `down` in `heap.go`: the greater of the
current node and its in-range children. -/
def largestOf (hpq : HeapPriorityQueue) (current : Nat) : Nat :=
  if rightchild current < hpq.size ∧ hpq.greater (rightchild current)
      (if leftchild current < hpq.size ∧ hpq.greater (leftchild current) current
       then leftchild current else current)
  then rightchild current
  else if leftchild current < hpq.size ∧ hpq.greater (leftchild current) current
    then leftchild current else current

/-- `down` from `heap.go`: sift down, descending into the larger child
while it is strictly greater. -/
def down (hpq : HeapPriorityQueue) (current : Nat) : HeapPriorityQueue :=
  if hpq.leaf current then hpq
  else if h : largestOf hpq current ≠ current then
    down (hpq.swap current (largestOf hpq current)) (largestOf hpq current)
  else hpq
termination_by hpq.size - current
decreasing_by
  have hspec : current < largestOf hpq current ∧
      largestOf hpq current < hpq.size := by
    unfold largestOf at h ⊢
    by_cases h2 : rightchild current < hpq.size ∧
        hpq.greater (rightchild current)
          (if leftchild current < hpq.size ∧
              hpq.greater (leftchild current) current
           then leftchild current else current)
    · rw [if_pos h2]
      simp only [rightchild]
      refine ⟨by omega, ?_⟩
      have := h2.1
      simpa [rightchild] using this
    · rw [if_neg h2]
      rw [if_neg h2] at h
      by_cases h1 : leftchild current < hpq.size ∧
          hpq.greater (leftchild current) current
      · rw [if_pos h1]
        rw [if_pos h1] at h
        simp only [leftchild]
        refine ⟨by omega, ?_⟩
        have := h1.1
        simpa [leftchild] using this
      · rw [if_neg h1] at h
        exact absurd rfl h
  show (hpq.swap current (largestOf hpq current)).size -
      largestOf hpq current < hpq.size - current
  simp only [HeapPriorityQueue.swap]
  omega

/-- `HeapPriorityQueue.PushOrError` from `heap.go`. -/
def pushOrError (hpq : HeapPriorityQueue) (item : QItem) :
    Except QErr HeapPriorityQueue :=
  if ¬ hpq.running then .error .closed
  else if hpq.size = hpq.sizeLimit then .error .full
  else
    let a : HeapPriorityQueue := { hpq with arr := hpq.arr.set hpq.size item }
    let b := a.up hpq.size
    .ok { b with size := b.size + 1 }

/-- `HeapPriorityQueue.PopOrWaitTillClose` from `heap.go`. -/
def popOrWaitTillClose (hpq : HeapPriorityQueue) :
    PopRes HeapPriorityQueue :=
  if ¬ hpq.running then .closed
  else if hpq.size = 0 then .blocked
  else
    let top := hpq.arr.getD 0 MinQItem
    let a : HeapPriorityQueue := { hpq with
      arr := (hpq.arr.set 0 (hpq.arr.getD (hpq.size - 1) MinQItem)).set
        (hpq.size - 1) MinQItem
      size := hpq.size - 1 }
    .item top (a.down 0)

/-- `HeapPriorityQueue.Close` from `heap.go`. -/
def close (hpq : HeapPriorityQueue) : HeapPriorityQueue :=
  { hpq with running := false }

end HeapPriorityQueue

/-! ## Circular FIFO: `circular/circular.go` -/

/-- CircularQueue state from `circular.go`. -/
structure CircularQueue where
  arr : List Nat
  maxSize : Nat
  currentSize : Nat
  head : Nat
  tail : Nat
  running : Bool
  deriving DecidableEq, Repr

/-- `NewCircularQueue` from `circular.go`. -/
def NewCircularQueue (n : Nat) : CircularQueue :=
  { arr := List.replicate n 0
    maxSize := n
    currentSize := 0
    head := 0
    tail := 0
    running := true }

namespace CircularQueue

/-- `getNextIndex` from `circular.go`. -/
def getNextIndex (c : CircularQueue) (index : Nat) : Nat :=
  if index = c.maxSize - 1 then 0 else index + 1

/-- `isFull` from `circular.go`. -/
def isFull (c : CircularQueue) : Bool :=
  c.currentSize == c.maxSize

/-- `isEmpty` from `circular.go`. -/
def isEmpty (c : CircularQueue) : Bool :=
  c.currentSize == 0

/-- `CircularQueue.PushOrError` from `circular.go`. -/
def pushOrError (c : CircularQueue) (item : QItem) :
    Except QErr CircularQueue :=
  if ¬ c.running then .error .closed
  else if c.isFull then .error .full
  else
    .ok { c with
      arr := c.arr.set c.head item.id
      head := c.getNextIndex c.head
      currentSize := c.currentSize + 1 }

/-- `CircularQueue.PopOrWaitTillClose` from `circular.go`: the returned
item has `Priority` zero (unused). -/
def popOrWaitTillClose (c : CircularQueue) : PopRes CircularQueue :=
  if ¬ c.running then .closed
  else if c.isEmpty then .blocked
  else
    .item { id := c.arr.getD c.tail 0, priority := 0 }
      { c with
        tail := c.getNextIndex c.tail
        currentSize := c.currentSize - 1 }

/-- `CircularQueue.Close` from `circular.go`. -/
def close (c : CircularQueue) : CircularQueue :=
  { c with running := false }

end CircularQueue

/-- Push a list of items into a heap queue; `none` if any push fails. -/
def hpqPushAll (hpq : HeapPriorityQueue) : List QItem → Option HeapPriorityQueue
  | [] => some hpq
  | it :: rest =>
      match hpq.pushOrError it with
      | .ok hpq' => hpqPushAll hpq' rest
      | .error _ => none

/-- Pop `n` items from a heap queue, collecting them in order. -/
def hpqPopN (hpq : HeapPriorityQueue) :
    Nat → Option (List QItem × HeapPriorityQueue)
  | 0 => some ([], hpq)
  | n + 1 =>
      match hpq.popOrWaitTillClose with
      | .item it hpq' =>
          match hpqPopN hpq' n with
          | some (its, hpq'') => some (it :: its, hpq'')
          | none => none
      | _ => none

/-- Push a list of items into a circular queue; `none` if any push
fails. -/
def circPushAll (c : CircularQueue) : List QItem → Option CircularQueue
  | [] => some c
  | it :: rest =>
      match c.pushOrError it with
      | .ok c' => circPushAll c' rest
      | .error _ => none

/-! ## Multi-queue invariants and reachability -/

/-- Relation between the occupancy counter and the substrate at one
priority slot: a nil substrate counts zero; a live substrate is a well
formed open segment chain whose buffered-item count is the counter. -/
def subQueueOkAt (counts : List Int) (queues : List (Option LinkedSlice))
    (p : Nat) : Prop :=
  match queues.getD p none with
  | none => counts.getD p 0 = 0
  | some q =>
      ChainOk q.segs ∧ q.running = true ∧
        counts.getD p 0 = (q.toList.length : Int)

/-- Invariant of reachable ROUNDROBIN states: array lengths match the
priority bound, `size` is the sum of the counters, the cursor is `-1`
exactly on the empty queue and otherwise points at a non-empty priority,
and every slot satisfies `subQueueOkAt`. -/
def RRInv (rr : RoundRobinPriorityQueue) : Prop :=
  0 < rr.limitPriority ∧
  rr.numberOfTasksInEachQueue.length = rr.limitPriority.toNat ∧
  rr.queues.length = rr.limitPriority.toNat ∧
  rr.size = rr.numberOfTasksInEachQueue.sum ∧
  (rr.currentPriorityToRetrieve = -1 ↔ rr.size = 0) ∧
  (rr.size ≠ 0 →
    0 ≤ rr.currentPriorityToRetrieve ∧
    rr.currentPriorityToRetrieve < rr.limitPriority ∧
    0 < rr.numberOfTasksInEachQueue.getD rr.currentPriorityToRetrieve.toNat 0) ∧
  (∀ p, p < rr.limitPriority.toNat →
    subQueueOkAt rr.numberOfTasksInEachQueue rr.queues p)

/-- Invariant of reachable STRICT states. -/
def PQInv (pq : PriorityQueue) : Prop :=
  0 < pq.limitPriority ∧
  pq.numberOfTasksInEachQueue.length = pq.limitPriority.toNat ∧
  pq.queues.length = pq.limitPriority.toNat ∧
  pq.size = pq.numberOfTasksInEachQueue.sum ∧
  (∀ p, p < pq.limitPriority.toNat →
    subQueueOkAt pq.numberOfTasksInEachQueue pq.queues p)

/-- ROUNDROBIN states reachable from a successful construction through
successful pushes and pops. -/
inductive RRReach : RoundRobinPriorityQueue → Prop where
  | init (sizeLimit numOfPriority : Int) (rr : RoundRobinPriorityQueue) :
      NewRoundRobinPriorityQueue sizeLimit numOfPriority = .ok rr →
      RRReach rr
  | push (rr : RoundRobinPriorityQueue) (item : QItem)
      (rr' : RoundRobinPriorityQueue) : RRReach rr →
      rr.pushOrError item = .ok rr' → RRReach rr'
  | pop (rr : RoundRobinPriorityQueue) (it : QItem)
      (rr' : RoundRobinPriorityQueue) : RRReach rr →
      rr.popOrWaitTillClose = .item it rr' → RRReach rr'

/-- STRICT states reachable from a successful construction through
successful pushes and pops. -/
inductive PQReach : PriorityQueue → Prop where
  | init (sizeLimit numOfPriority : Int) (pq : PriorityQueue) :
      NewPriorityQueue sizeLimit numOfPriority = .ok pq → PQReach pq
  | push (pq : PriorityQueue) (item : QItem) (pq' : PriorityQueue) :
      PQReach pq → pq.pushOrError item = .ok pq' → PQReach pq'
  | pop (pq : PriorityQueue) (it : QItem) (pq' : PriorityQueue) :
      PQReach pq → pq.popOrWaitTillClose = .item it pq' → PQReach pq'

/-! ## Heap invariants and reachability -/

/-- The priority stored at index `i` of a heap array. -/
def pAt (l : List QItem) (i : Nat) : Int :=
  (l.getD i MinQItem).priority

/-- The heap-shape property the code maintains on the active prefix:
every non-root entry is at most its parent (a max-heap, larger
priorities toward the root). -/
def HeapProp (l : List QItem) (size : Nat) : Prop :=
  ∀ i, 0 < i → i < size → pAt l i ≤ pAt l (HeapPriorityQueue.parent i)

/-- The property claimed by the spec, following its words: for every
`i < size`, `arr[i].P ≥ arr[(i-1)/2].P` (each entry at least its
parent). -/
def SpecHeapProp (l : List QItem) (size : Nat) : Prop :=
  ∀ i, i < size → pAt l (HeapPriorityQueue.parent i) ≤ pAt l i

/-- Invariant of reachable heap states: array length fixed at the size
limit, active prefix within bounds and heap-shaped, and every slot
beyond the active prefix holding the sentinel. -/
def HPQInv (hpq : HeapPriorityQueue) : Prop :=
  hpq.arr.length = hpq.sizeLimit ∧ hpq.size ≤ hpq.sizeLimit ∧
  HeapProp hpq.arr hpq.size ∧
  (∀ i, hpq.size ≤ i → i < hpq.arr.length → hpq.arr.getD i MinQItem = MinQItem)

/-- Heap states reachable from construction through successful pushes
and pops. -/
inductive HPQReach : HeapPriorityQueue → Prop where
  | init (sizeLimit : Nat) : HPQReach (NewHeapPriorityQueue sizeLimit)
  | push (hpq : HeapPriorityQueue) (item : QItem) (hpq' : HeapPriorityQueue) :
      HPQReach hpq → hpq.pushOrError item = .ok hpq' → HPQReach hpq'
  | pop (hpq : HeapPriorityQueue) (it : QItem) (hpq' : HeapPriorityQueue) :
      HPQReach hpq → hpq.popOrWaitTillClose = .item it hpq' → HPQReach hpq'

/-- During sift-up only the edge into `hole` may be unordered, and the
children of `hole` already fit below its parent. -/
def UpInv (l : List QItem) (size hole : Nat) : Prop :=
  (∀ i, 0 < i → i < size → i ≠ hole →
    pAt l i ≤ pAt l (HeapPriorityQueue.parent i)) ∧
  (0 < hole → ∀ i, 0 < i → i < size → HeapPriorityQueue.parent i = hole →
    pAt l i ≤ pAt l (HeapPriorityQueue.parent hole))

/-- During sift-down only the edges out of `c` may be unordered, and the
children of `c` already fit below its parent. -/
def DownInv (l : List QItem) (size c : Nat) : Prop :=
  (∀ i, 0 < i → i < size → HeapPriorityQueue.parent i ≠ c →
    pAt l i ≤ pAt l (HeapPriorityQueue.parent i)) ∧
  (0 < c → ∀ i, 0 < i → i < size → HeapPriorityQueue.parent i = c →
    pAt l i ≤ pAt l (HeapPriorityQueue.parent c))

/-- The heap state witnessing the C4 counterexample: the state of a
fresh `HPQ(2)` after pushing priorities 1 then 2. -/
def hC4 : HeapPriorityQueue :=
  { arr := [⟨2, 2⟩, ⟨1, 1⟩], size := 2, sizeLimit := 2, running := true }

/-- The priorities `[1, 2, …, k]`. -/
def ascList (k : Nat) : List Int :=
  (List.range k).map (fun (j : Nat) => (j : Int) + 1)

/-- The priorities `[k, k-1, …, 1]`. -/
def descList (k : Nat) : List Int :=
  (List.range k).map (fun (j : Nat) => (k : Int) - (j : Int))

/-- The priorities of the active prefix of a heap. -/
def heapPriorities (hpq : HeapPriorityQueue) : List Int :=
  (hpq.arr.take hpq.size).map (fun it => it.priority)

/-- A concrete item list carrying priorities `1..100`, used as the C5
witness input. -/
def c5Items : List QItem :=
  (List.range 100).map (fun j => { id := j, priority := (j : Int) + 1 })

/-! ## Task records: `task.go` and `common/task.go` -/

/-- Task from `task.go` / `common/task.go`: a promise holding the
submission context (modelled by its Done signal), priority, user
function and argument, result and error slots, and the one-shot
completion latch (`sync.WaitGroup` with count 1). Go `nil` interface
and error values are modelled by `none`. -/
structure Task (α ε : Type) where
  ctxDone : Bool
  priority : Int
  fn : Bool → Option α → Option α × Option ε
  arg : Option α
  result : Option α
  err : Option ε
  wgDone : Bool

/-- `newTask`: result and error slots start nil, latch pending. -/
def newTask {α ε : Type} (ctxDone : Bool) (priority : Int)
    (fn : Bool → Option α → Option α × Option ε) (arg : Option α) :
    Task α ε :=
  { ctxDone := ctxDone
    priority := priority
    fn := fn
    arg := arg
    result := none
    err := none
    wgDone := false }

namespace Task

/-- `Task.set`: publish result and error, release the latch. -/
def set {α ε : Type} (t : Task α ε) (result : Option α)
    (err : Option ε) : Task α ε :=
  { t with result := result, err := err, wgDone := true }

/-- `Task.Result`: wait for the latch (the sequential model reads the
published slots), and return `(nil, err)` when the error is non-nil,
else `(result, nil)`. -/
def Result {α ε : Type} (t : Task α ε) : Option α × Option ε :=
  if t.err.isSome then (none, t.err) else (t.result, none)

end Task

/-! ## Engine: `engine.go` -/

/-- Engine from `engine.go`, instantiated (as in the repository tests)
with the heap queue. `closeChan` is a Go channel used only as a one-shot
latch; its state is whether it has been closed. -/
structure Engine where
  lastID : Nat
  q : HeapPriorityQueue
  mapping : List (Nat × Task Nat Nat)
  closeChanClosed : Bool

/-- `New` from `engine.go` (the worker goroutines have no state of their
own beyond the shared engine). -/
def NewEngine (q : HeapPriorityQueue) (numOfWorker : Int) :
    Except QErr Engine :=
  if numOfWorker ≤ 0 then .error .paramShouldBePositive
  else .ok { lastID := 0, q := q, mapping := [], closeChanClosed := false }

/-- `Engine.Close` from `engine.go`: `close(e.closeChan)` then
`e.q.Close()`. In Go, `close` of an already-closed channel panics; the
panic is modelled by `none`. -/
def Engine.closeEngine (e : Engine) : Option Engine :=
  if e.closeChanClosed then none
  else some { e with closeChanClosed := true, q := e.q.close }

/-- A concrete engine over a fresh heap queue, as in the repository
tests. -/
def engineW : Engine :=
  { lastID := 0
    q := NewHeapPriorityQueue 100
    mapping := []
    closeChanClosed := false }

/-- A concrete freshly-constructed ROUNDROBIN queue, used as witness. -/
def rrW : RoundRobinPriorityQueue :=
  { numberOfTasksInEachQueue := [0, 0, 0]
    queues := [none, none, none]
    limitPriority := 3
    size := 0
    sizeLimit := 4
    currentPriorityToRetrieve := -1
    running := true }

/-- A concrete freshly-constructed STRICT queue, used as witness. -/
def pqW : PriorityQueue :=
  { numberOfTasksInEachQueue := [0, 0, 0]
    queues := [none, none, none]
    limitPriority := 3
    size := 0
    sizeLimit := 4
    running := true }

/-! ## Claim theorems: scenarios -/

/-- C1: for the ROUNDROBIN multi-queue with `N = 16` and
`sizeLimit = 2048`, starting from a fresh empty queue, after the four
successful pushes `(1,8), (2,13), (3,5), (4,13)`, four successive pops
return exactly `(1,8), (3,5), (2,13), (4,13)` in that order. -/
theorem c1_roundrobin_sweep :
    rrScenarioS1 =
      some [⟨1, 8⟩, ⟨3, 5⟩, ⟨2, 13⟩, ⟨4, 13⟩] := by
  decide

/-- C2: for the STRICT multi-queue with `N = 16` and `sizeLimit = 2048`,
starting from a fresh empty queue, after the three successful pushes
`(1,8), (2,13), (3,13)`, three successive pops return exactly
`(2,13), (3,13), (1,8)`: every pop takes from the largest priority index
with a non-zero count, and items of equal priority emerge in push
order. -/
theorem c2_strict_order :
    pqScenarioS2 = some [⟨2, 13⟩, ⟨3, 13⟩, ⟨1, 8⟩] := by
  decide

/-! ## Segment chain lemmas (FIFO of the segmented buffer) -/

theorem range'_concat_one (s n : Nat) :
    List.range' s (n + 1) = List.range' s n ++ [s + n] := by
  have h := @List.range'_concat 1 s n
  simpa using h

theorem canPush_iff (s : InternalSlice) :
    s.canPush = true ↔ s.head < s.sizeLimit := by
  simp [InternalSlice.canPush]

theorem canPush_false_iff (s : InternalSlice) :
    s.canPush = false ↔ s.sizeLimit ≤ s.head := by
  simp [InternalSlice.canPush]

theorem isEmpty_false_iff (s : InternalSlice) :
    s.isEmpty = false ↔ s.head ≠ 0 ∧ s.tail ≠ s.head := by
  simp [InternalSlice.isEmpty]

theorem slotsUsedUp_iff (s : InternalSlice) :
    s.slotsUsedUp = true ↔ s.tail = s.sizeLimit := by
  simp [InternalSlice.slotsUsedUp]

theorem range'_succ_one (s n : Nat) :
    List.range' s (n + 1) = s :: List.range' (s + 1) n :=
  List.range'_succ s n 1

theorem contents_pushRaw (s : InternalSlice) (n : Nat) (h : s.tail ≤ s.head) :
    (s.pushRaw n).contents = s.contents ++ [n] := by
  show (List.range' s.tail (s.head + 1 - s.tail)).map
      (fun j => if j = s.head then n else s.arr j) = _
  have h1 : s.head + 1 - s.tail = (s.head - s.tail) + 1 := by omega
  have h2 : s.tail + (s.head - s.tail) = s.head := by omega
  rw [h1, range'_concat_one, List.map_append, h2]
  have h3 : ∀ m ∈ List.range' s.tail (s.head - s.tail),
      (if m = s.head then n else s.arr m) = s.arr m := by
    intro m hm
    rw [List.mem_range'_1] at hm
    have : m < s.head := by omega
    simp [Nat.ne_of_lt this]
  rw [List.map_congr_left h3]
  simp [InternalSlice.contents]

theorem contents_newPushRaw (n : Nat) :
    (newInternalSlice.pushRaw n).contents = [n] := by
  simp [InternalSlice.contents, InternalSlice.pushRaw, newInternalSlice,
    List.range']

theorem contents_cons_of_not_empty (s : InternalSlice)
    (hwf : s.tail ≤ s.head) (h : s.isEmpty = false) :
    s.contents =
      s.arr s.tail :: InternalSlice.contents { s with tail := s.tail + 1 } := by
  have hne : s.tail < s.head := by
    simp only [InternalSlice.isEmpty, Bool.or_eq_false_iff, beq_eq_false_iff_ne,
      ne_eq] at h
    omega
  show (List.range' s.tail (s.head - s.tail)).map s.arr = _
  have h1 : s.head - s.tail = (s.head - (s.tail + 1)) + 1 := by omega
  rw [h1, range'_succ_one]
  simp [InternalSlice.contents]

theorem contents_eq_nil_iff (s : InternalSlice) (hwf : s.tail ≤ s.head) :
    s.contents = [] ↔ s.head = s.tail := by
  constructor
  · intro h
    by_contra hne
    have hlt : s.tail < s.head := by omega
    have h1 : s.head - s.tail = (s.head - (s.tail + 1)) + 1 := by omega
    rw [InternalSlice.contents, h1, range'_succ_one] at h
    simp at h
  · intro h
    rw [InternalSlice.contents, h]
    simp

theorem chainToList_cons (s : InternalSlice) (l : List InternalSlice) :
    chainToList (s :: l) = s.contents ++ chainToList l := by
  simp [chainToList]

theorem chainToList_pushIntoChain (n : Nat) (l : List InternalSlice)
    (h : ∀ s ∈ l, s.tail ≤ s.head) :
    chainToList (pushIntoChain n l) = chainToList l ++ [n] := by
  induction l with
  | nil =>
      simp [pushIntoChain, chainToList, contents_newPushRaw]
  | cons s rest ih =>
      cases rest with
      | nil =>
          cases hcp : s.canPush with
          | true =>
              simp only [pushIntoChain, hcp, if_true]
              rw [chainToList_cons, chainToList_cons]
              rw [contents_pushRaw s n (h s (by simp))]
              simp [chainToList]
          | false =>
              simp only [pushIntoChain, hcp, Bool.false_eq_true, if_false]
              rw [chainToList_cons, chainToList_cons, chainToList_cons]
              rw [contents_newPushRaw]
              simp [chainToList]
      | cons s2 rest2 =>
          have ih2 := ih (by intro t ht; exact h t (by simp [ht]))
          rw [show pushIntoChain n (s :: s2 :: rest2) =
              s :: pushIntoChain n (s2 :: rest2) from rfl]
          rw [chainToList_cons, chainToList_cons, ih2]
          simp

theorem segWF_newPushRaw (n : Nat) : SegWF (newInternalSlice.pushRaw n) := by
  refine ⟨rfl, by simp [InternalSlice.pushRaw, newInternalSlice], ?_⟩
  simp [InternalSlice.pushRaw, newInternalSlice, internalSliceSize]

theorem segWF_pushRaw (s : InternalSlice) (n : Nat) (hwf : SegWF s)
    (hcp : s.canPush = true) : SegWF (s.pushRaw n) := by
  obtain ⟨h1, h2, h3⟩ := hwf
  have hlt := (canPush_iff s).mp hcp
  refine ⟨h1, ?_, ?_⟩
  · show s.tail ≤ s.head + 1
    omega
  · show s.head + 1 ≤ s.sizeLimit
    omega

theorem tailOk_pushIntoChain (n : Nat) (l : List InternalSlice)
    (h : TailOk l) (hne : l ≠ []) :
    TailOk (pushIntoChain n l) ∧ pushIntoChain n l ≠ [] := by
  induction l with
  | nil => exact absurd rfl hne
  | cons s rest ih =>
      cases rest with
      | nil =>
          obtain ⟨hwf, ht, _, _⟩ := h
          by_cases hcp : s.canPush
          · refine ⟨?_, by simp [pushIntoChain, hcp]⟩
            simp only [pushIntoChain, hcp, if_true]
            exact ⟨segWF_pushRaw s n hwf hcp, by simp [InternalSlice.pushRaw, ht],
              Or.inl rfl, trivial⟩
          · refine ⟨?_, by simp [pushIntoChain, hcp]⟩
            simp only [pushIntoChain, hcp, if_false]
            have hfull : s.head = s.sizeLimit := by
              obtain ⟨h1, h2, h3⟩ := hwf
              have := (canPush_false_iff s).mp (by
                cases hc : s.canPush
                · rfl
                · exact absurd hc hcp)
              omega
            exact ⟨hwf, ht, Or.inr hfull,
              segWF_newPushRaw n, rfl, Or.inl rfl, trivial⟩
      | cons s2 rest2 =>
          obtain ⟨hwf, ht, hfull, htail⟩ := h
          have ih2 := ih htail (by simp)
          refine ⟨?_, by simp [pushIntoChain]⟩
          rw [show pushIntoChain n (s :: s2 :: rest2) =
              s :: pushIntoChain n (s2 :: rest2) from rfl]
          refine ⟨hwf, ht, ?_, ih2.1⟩
          right
          rcases hfull with h | h
          · exact absurd h (by simp)
          · exact h

theorem tailOk_segWF (l : List InternalSlice) (h : TailOk l) :
    ∀ s ∈ l, SegWF s := by
  induction l with
  | nil => intro s hs; simp at hs
  | cons s rest ih =>
      obtain ⟨hwf, _, _, htail⟩ := h
      intro t ht
      rcases List.mem_cons.mp ht with rfl | ht2
      · exact hwf
      · exact ih htail t ht2

theorem chainOk_segWF (l : List InternalSlice) (h : ChainOk l) :
    ∀ s ∈ l, SegWF s := by
  cases l with
  | nil => intro s hs; simp at hs
  | cons s rest =>
      obtain ⟨hwf, _, _, htail⟩ := h
      intro t ht
      rcases List.mem_cons.mp ht with rfl | ht2
      · exact hwf
      · exact tailOk_segWF rest htail t ht2

theorem chainOk_tail_le_head (l : List InternalSlice) (h : ChainOk l) :
    ∀ s ∈ l, s.tail ≤ s.head := by
  intro s hs
  exact (chainOk_segWF l h s hs).2.1

theorem chainOk_of_tailOk (l : List InternalSlice) (h : TailOk l) :
    ChainOk l := by
  cases l with
  | nil => trivial
  | cons s rest =>
      obtain ⟨hwf, ht, hfull, htail⟩ := h
      refine ⟨hwf, ?_, hfull, htail⟩
      rw [ht, hwf.1]
      simp [internalSliceSize]

theorem chainOk_pushIntoChain (n : Nat) (l : List InternalSlice)
    (h : ChainOk l) : ChainOk (pushIntoChain n l) := by
  cases l with
  | nil =>
      refine ⟨segWF_newPushRaw n, ?_, Or.inl rfl, trivial⟩
      show (0 : Nat) < internalSliceSize
      simp [internalSliceSize]
  | cons s rest =>
      obtain ⟨hwf, ht, hfull, htail⟩ := h
      cases rest with
      | nil =>
          cases hcp : s.canPush with
          | true =>
              simp only [pushIntoChain, hcp, if_true]
              refine ⟨segWF_pushRaw s n hwf hcp, ?_, Or.inl rfl, trivial⟩
              show s.tail < s.sizeLimit
              exact ht
          | false =>
              simp only [pushIntoChain, hcp, Bool.false_eq_true, if_false]
              have hfull2 : s.head = s.sizeLimit := by
                obtain ⟨h1, h2, h3⟩ := hwf
                have := (canPush_false_iff s).mp hcp
                omega
              exact ⟨hwf, ht, Or.inr hfull2,
                segWF_newPushRaw n, rfl, Or.inl rfl, trivial⟩
      | cons s2 rest2 =>
          have hstep := tailOk_pushIntoChain n (s2 :: rest2) htail (by simp)
          rw [show pushIntoChain n (s :: s2 :: rest2) =
              s :: pushIntoChain n (s2 :: rest2) from rfl]
          refine ⟨hwf, ht, ?_, hstep.1⟩
          right
          rcases hfull with hh | hh
          · exact absurd hh (by simp)
          · exact hh

theorem checkHeadExist_running (ls : LinkedSlice) :
    (checkHeadExist ls).running = ls.running := by
  unfold checkHeadExist
  cases h : ls.segs.isEmpty <;> simp

theorem checkHeadExist_chainOk (ls : LinkedSlice) (hok : ChainOk ls.segs) :
    ChainOk (checkHeadExist ls).segs := by
  unfold checkHeadExist
  cases hsegs : ls.segs with
  | nil =>
      simp only [hsegs, List.isEmpty_nil, if_true]
      refine ⟨⟨rfl, by simp [newInternalSlice], by simp [newInternalSlice]⟩,
        ?_, Or.inl rfl, trivial⟩
      show (0 : Nat) < internalSliceSize
      simp [internalSliceSize]
  | cons s rest =>
      rw [hsegs] at hok
      simp only [hsegs, List.isEmpty_cons, Bool.false_eq_true, if_false]
      exact hok

theorem checkHeadExist_toList (ls : LinkedSlice) :
    chainToList (checkHeadExist ls).segs = chainToList ls.segs := by
  unfold checkHeadExist
  cases hsegs : ls.segs with
  | nil =>
      simp only [hsegs, List.isEmpty_nil, if_true]
      simp [chainToList, InternalSlice.contents, newInternalSlice]
  | cons s rest => simp [hsegs]

theorem ls_push_ok (ls : LinkedSlice) (item : QItem)
    (hrun : ls.running = true) (hok : ChainOk ls.segs) :
    ∃ ls', ls.pushOrError item = .ok ls' ∧ ls'.running = true ∧
      ChainOk ls'.segs ∧ ls'.toList = ls.toList ++ [item.id] := by
  have hok1 := checkHeadExist_chainOk ls hok
  refine ⟨{ checkHeadExist ls with
      segs := pushIntoChain item.id (checkHeadExist ls).segs }, ?_, ?_, ?_, ?_⟩
  · unfold LinkedSlice.pushOrError
    rw [hrun]
    simp
  · rw [checkHeadExist_running]
    exact hrun
  · exact chainOk_pushIntoChain item.id _ hok1
  · show chainToList (pushIntoChain item.id (checkHeadExist ls).segs) =
      chainToList ls.segs ++ [item.id]
    rw [chainToList_pushIntoChain item.id _
      (chainOk_tail_le_head _ hok1), checkHeadExist_toList]

theorem ls_pop_ok (ls : LinkedSlice) (x : Nat) (xs : List Nat)
    (hrun : ls.running = true) (hok : ChainOk ls.segs)
    (hl : ls.toList = x :: xs) :
    ∃ ls', ls.popOrWaitTillClose = .item ⟨x, 0⟩ ls' ∧ ls'.running = true ∧
      ChainOk ls'.segs ∧ ls'.toList = xs := by
  cases hsegs : ls.segs with
  | nil =>
      rw [LinkedSlice.toList, chainToList, hsegs] at hl
      simp at hl
  | cons s rest =>
      rw [hsegs] at hok
      obtain ⟨hwf, htlt, hfull, htail⟩ := hok
      have hle : s.tail ≤ s.head := hwf.2.1
      have hcontents : s.contents ≠ [] := by
        intro hnil
        have hht : s.head = s.tail := (contents_eq_nil_iff s hle).mp hnil
        have : s.tail < s.sizeLimit := htlt
        rcases hfull with hh | hh
        · rw [LinkedSlice.toList, hsegs, hh, chainToList_cons, hnil] at hl
          simp [chainToList] at hl
        · omega
      have hne : s.isEmpty = false := by
        rw [isEmpty_false_iff]
        constructor
        · intro h0
          apply hcontents
          rw [(contents_eq_nil_iff s hle)]
          omega
        · intro heq
          exact hcontents ((contents_eq_nil_iff s hle).mpr heq.symm)
      have hdecomp := contents_cons_of_not_empty s hle hne
      have hx : s.arr s.tail = x ∧
          InternalSlice.contents { s with tail := s.tail + 1 } ++
            chainToList rest = xs := by
        rw [LinkedSlice.toList, hsegs, chainToList_cons, hdecomp] at hl
        simp at hl
        exact ⟨hl.1, hl.2⟩
      have hche : checkHeadExist ls = ls := by
        unfold checkHeadExist
        rw [hsegs]
        simp
      have hne2 := (isEmpty_false_iff s).mp hne
      obtain ⟨h1, h2, h3⟩ := hwf
      cases hsu : InternalSlice.slotsUsedUp { s with tail := s.tail + 1 } with
      | true =>
          refine ⟨{ ls with segs := rest }, ?_, hrun, ?_, ?_⟩
          · simp only [LinkedSlice.popOrWaitTillClose, hrun, hche, hsegs, hne,
              hsu, Bool.not_true, Bool.false_eq_true, if_false, if_true, hx.1]
            simp
          · exact chainOk_of_tailOk rest htail
          · have hsl : s.tail + 1 = s.sizeLimit :=
              (slotsUsedUp_iff { s with tail := s.tail + 1 }).mp hsu
            have hcempty :
                InternalSlice.contents { s with tail := s.tail + 1 } = [] := by
              rw [contents_eq_nil_iff]
              · show s.head = s.tail + 1
                omega
              · show s.tail + 1 ≤ s.head
                omega
            have hxs := hx.2
            rw [hcempty] at hxs
            simpa [LinkedSlice.toList] using hxs
      | false =>
          refine ⟨{ ls with segs := { s with tail := s.tail + 1 } :: rest },
            ?_, hrun, ?_, ?_⟩
          · simp only [LinkedSlice.popOrWaitTillClose, hrun, hche, hsegs, hne,
              hsu, Bool.not_true, Bool.false_eq_true, if_false, hx.1]
            simp
          · have hsu2 : s.tail + 1 ≠ s.sizeLimit := by
              intro hcontra
              have := (slotsUsedUp_iff { s with tail := s.tail + 1 }).mpr hcontra
              rw [hsu] at this
              simp at this
            refine ⟨⟨h1, by show s.tail + 1 ≤ s.head; omega, h3⟩, ?_, ?_, htail⟩
            · show s.tail + 1 < s.sizeLimit
              omega
            · rcases hfull with hh | hh
              · exact Or.inl hh
              · exact Or.inr hh
          · show chainToList _ = xs
            rw [chainToList_cons]
            exact hx.2

theorem lsPushAll_ok (ids : List Nat) : ∀ ls : LinkedSlice,
    ls.running = true → ChainOk ls.segs →
    ∃ ls', lsPushAll ls ids = some ls' ∧ ls'.running = true ∧
      ChainOk ls'.segs ∧ ls'.toList = ls.toList ++ ids := by
  induction ids with
  | nil =>
      intro ls h1 h2
      exact ⟨ls, rfl, h1, h2, by simp⟩
  | cons n rest ih =>
      intro ls h1 h2
      obtain ⟨ls1, hpush, hr1, hc1, hl1⟩ := ls_push_ok ls ⟨n, 0⟩ h1 h2
      obtain ⟨ls2, hall, hr2, hc2, hl2⟩ := ih ls1 hr1 hc1
      refine ⟨ls2, ?_, hr2, hc2, ?_⟩
      · simp [lsPushAll, hpush, hall]
      · rw [hl2, hl1]
        simp

theorem lsPopN_ok (ids : List Nat) : ∀ (ls : LinkedSlice) (rest : List Nat),
    ls.running = true → ChainOk ls.segs → ls.toList = ids ++ rest →
    ∃ ls', lsPopN ls ids.length = some (ids, ls') ∧ ls'.running = true ∧
      ChainOk ls'.segs ∧ ls'.toList = rest := by
  induction ids with
  | nil =>
      intro ls rest h1 h2 h3
      exact ⟨ls, rfl, h1, h2, by simpa using h3⟩
  | cons x xs ih =>
      intro ls rest h1 h2 h3
      obtain ⟨ls1, hpop, hr1, hc1, hl1⟩ :=
        ls_pop_ok ls x (xs ++ rest) h1 h2 (by simpa using h3)
      obtain ⟨ls2, hpn, hr2, hc2, hl2⟩ := ih ls1 rest hr1 hc1 hl1
      refine ⟨ls2, ?_, hr2, hc2, hl2⟩
      simp [lsPopN, hpop, hpn]

/-- C6: for every sequence of IDs (in particular sequences longer than
the 256-entry segment capacity, crossing segment boundaries and retiring
head segments) pushed into a fresh open LinkedSlice, popping that many
times returns exactly the same sequence of IDs in the same order. -/
theorem c6_linkedslice_fifo (ids : List Nat) :
    ∃ ls ls', lsPushAll NewLinkedSlice ids = some ls ∧
      lsPopN ls ids.length = some (ids, ls') := by
  obtain ⟨ls, hall, hr, hc, hl⟩ :=
    lsPushAll_ok ids NewLinkedSlice rfl trivial
  obtain ⟨ls', hpn, _, _, _⟩ :=
    lsPopN_ok ids ls [] hr hc (by simpa using hl)
  exact ⟨ls, ls', hall, hpn⟩

/-! ## List helper lemmas -/

theorem getD_set_self {α : Type} (l : List α) (p : Nat) (v d : α)
    (h : p < l.length) : (l.set p v).getD p d = v := by
  rw [List.getD_eq_getElem (l.set p v) d (by simpa using h)]
  simp [List.getElem_set, h]

theorem getD_set_ne {α : Type} (l : List α) (p q : Nat) (v d : α)
    (h : p ≠ q) : (l.set p v).getD q d = l.getD q d := by
  by_cases hq : q < l.length
  · rw [List.getD_eq_getElem (l.set p v) d (by simpa using hq),
      List.getD_eq_getElem l d hq]
    simp [List.getElem_set, h]
  · have h1 : l.length ≤ q := by omega
    rw [List.getD_eq_default _ _ (by simpa using h1),
      List.getD_eq_default _ _ h1]

theorem sum_set_add_one (l : List Int) (p : Nat) (h : p < l.length) :
    (l.set p (l.getD p 0 + 1)).sum = l.sum + 1 := by
  rw [List.sum_set']
  rw [dif_pos h, List.getD_eq_getElem l 0 h]
  ring

theorem sum_set_sub_one (l : List Int) (p : Nat) (h : p < l.length) :
    (l.set p (l.getD p 0 - 1)).sum = l.sum - 1 := by
  rw [List.sum_set']
  rw [dif_pos h, List.getD_eq_getElem l 0 h]
  ring

theorem exists_pos_getD_of_sum_pos (l : List Int) (h : 0 < l.sum) :
    ∃ j, j < l.length ∧ 0 < l.getD j 0 := by
  induction l with
  | nil => simp at h
  | cons a t ih =>
      by_cases ha : 0 < a
      · exact ⟨0, by simp, by simpa using ha⟩
      · have ht : 0 < t.sum := by
          rw [List.sum_cons] at h
          omega
        obtain ⟨j, hj, hp⟩ := ih ht
        refine ⟨j + 1, by simpa using hj, ?_⟩
        simpa using hp

theorem sum_nonneg_of_getD (l : List Int)
    (h : ∀ p, p < l.length → 0 ≤ l.getD p 0) : 0 ≤ l.sum := by
  apply List.sum_nonneg
  intro x hx
  obtain ⟨i, hi, rfl⟩ := List.mem_iff_getElem.mp hx
  rw [← List.getD_eq_getElem l 0 hi]
  exact h i hi

/-! ## Scan function lemmas -/

theorem findFirstPos_spec (counts : List Int) (i : Nat) :
    (findFirstPos counts i = -1 ∧ ∀ j, j ≤ i → counts.getD j 0 ≤ 0) ∨
    (∃ k : Nat, k ≤ i ∧ findFirstPos counts i = (k : Int) ∧
      0 < counts.getD k 0) := by
  induction i with
  | zero =>
      by_cases h : 0 < counts.getD 0 0
      · exact Or.inr ⟨0, le_refl 0,
          by simp only [findFirstPos]; rw [if_pos h]; simp, h⟩
      · left
        refine ⟨by simp only [findFirstPos]; rw [if_neg h], ?_⟩
        intro j hj
        interval_cases j
        omega
  | succ i ih =>
      by_cases h : 0 < counts.getD (i + 1) 0
      · exact Or.inr ⟨i + 1, le_refl _,
          by simp only [findFirstPos]; rw [if_pos h], h⟩
      · have heq : findFirstPos counts (i + 1) = findFirstPos counts i := by
          simp only [findFirstPos]
          rw [if_neg h]
        rcases ih with ⟨h1, h2⟩ | ⟨k, hk1, hk2, hk3⟩
        · left
          refine ⟨by rw [heq]; exact h1, ?_⟩
          intro j hj
          rcases Nat.lt_or_ge j (i + 1) with hlt | hge
          · exact h2 j (by omega)
          · have : j = i + 1 := by omega
            subst this
            omega
        · exact Or.inr ⟨k, by omega, by rw [heq]; exact hk2, hk3⟩

theorem findFirstPosGE_spec (counts : List Int) (lo : Nat) (i : Nat) :
    (findFirstPosGE counts lo i = -1 ∧
      ∀ j, lo ≤ j → j ≤ i → counts.getD j 0 ≤ 0) ∨
    (∃ k : Nat, lo ≤ k ∧ k ≤ i ∧ findFirstPosGE counts lo i = (k : Int) ∧
      0 < counts.getD k 0) := by
  induction i with
  | zero =>
      by_cases hlo : lo = 0
      · by_cases h : 0 < counts.getD 0 0
        · exact Or.inr ⟨0, by omega, le_refl 0,
            by simp only [findFirstPosGE]; rw [if_pos ⟨hlo, h⟩]; simp, h⟩
        · left
          refine ⟨by
            simp only [findFirstPosGE]
            rw [if_neg (by intro hc; exact h hc.2)], ?_⟩
          intro j hj1 hj2
          interval_cases j
          omega
      · left
        refine ⟨by
          simp only [findFirstPosGE]
          rw [if_neg (by intro hc; exact hlo hc.1)], ?_⟩
        intro j hj1 hj2
        omega
  | succ i ih =>
      by_cases hlt : i + 1 < lo
      · left
        refine ⟨by simp only [findFirstPosGE]; rw [if_pos hlt], ?_⟩
        intro j hj1 hj2
        omega
      · by_cases h : 0 < counts.getD (i + 1) 0
        · refine Or.inr ⟨i + 1, by omega, le_refl _, ?_, h⟩
          simp only [findFirstPosGE]
          rw [if_neg hlt, if_pos h]
        · have heq : findFirstPosGE counts lo (i + 1) =
              findFirstPosGE counts lo i := by
            simp only [findFirstPosGE]
            rw [if_neg hlt, if_neg h]
          rcases ih with ⟨h1, h2⟩ | ⟨k, hk0, hk1, hk2, hk3⟩
          · left
            refine ⟨by rw [heq]; exact h1, ?_⟩
            intro j hj1 hj2
            rcases Nat.lt_or_ge j (i + 1) with hj | hj
            · exact h2 j hj1 (by omega)
            · have : j = i + 1 := by omega
              subst this
              omega
          · exact Or.inr ⟨k, hk0, by omega, by rw [heq]; exact hk2, hk3⟩

/-! ## Multi-queue invariant preservation -/

theorem subQueueOkAt_q (counts : List Int) (queues : List (Option LinkedSlice))
    (p : Nat) (h : subQueueOkAt counts queues p) :
    ChainOk ((queues.getD p none).getD NewLinkedSlice).segs ∧
    ((queues.getD p none).getD NewLinkedSlice).running = true ∧
    counts.getD p 0 =
      (((queues.getD p none).getD NewLinkedSlice).toList.length : Int) := by
  unfold subQueueOkAt at h
  cases hq : queues.getD p none with
  | none =>
      rw [hq] at h
      refine ⟨trivial, rfl, ?_⟩
      simpa [LinkedSlice.toList, chainToList, NewLinkedSlice] using h
  | some lq =>
      rw [hq] at h
      simpa using h

theorem counts_nonneg_of_sub (counts : List Int)
    (queues : List (Option LinkedSlice)) (n : Nat)
    (h : ∀ p, p < n → subQueueOkAt counts queues p)
    (hlen : counts.length = n) :
    ∀ p, p < counts.length → 0 ≤ counts.getD p 0 := by
  intro p hp
  have := subQueueOkAt_q counts queues p (h p (by omega))
  rw [this.2.2]
  exact Int.natCast_nonneg _

theorem rr_push_sound (rr : RoundRobinPriorityQueue) (item : QItem)
    (rr' : RoundRobinPriorityQueue) (hinv : RRInv rr)
    (h : rr.pushOrError item = .ok rr') :
    RRInv rr' ∧ rr'.size = rr.size + 1 ∧ rr'.sizeLimit = rr.sizeLimit ∧
      rr'.limitPriority = rr.limitPriority ∧ rr'.running = rr.running := by
  obtain ⟨hl0, hlen1, hlen2, hsum, hcur1, hcur2, hsub⟩ := hinv
  unfold RoundRobinPriorityQueue.pushOrError at h
  by_cases h1 : item.priority < 0 ∨ item.priority ≥ rr.limitPriority
  · rw [if_pos h1] at h
    exact absurd h (by simp)
  rw [if_neg h1] at h
  push_neg at h1
  by_cases h2 : rr.running = true
  swap
  · rw [if_pos (by simpa using h2)] at h
    exact absurd h (by simp)
  rw [if_neg (by simp [h2])] at h
  by_cases h3 : rr.size = rr.sizeLimit
  · rw [if_pos h3] at h
    exact absurd h (by simp)
  rw [if_neg h3] at h
  simp only [] at h
  have hplt : item.priority.toNat < rr.limitPriority.toNat := by omega
  obtain ⟨hcq, hrq, hcnt⟩ := subQueueOkAt_q _ _ item.priority.toNat
    (hsub item.priority.toNat (by omega))
  obtain ⟨q2, hq2, hr2, hc2, hl2⟩ := ls_push_ok
    ((rr.queues.getD item.priority.toNat none).getD NewLinkedSlice) item
    hrq hcq
  rw [hq2] at h
  simp only [Except.ok.injEq] at h
  subst h
  have hsz0 : 0 ≤ rr.size := by
    rw [hsum]
    exact sum_nonneg_of_getD _ (counts_nonneg_of_sub _ _ _ hsub (by omega))
  refine ⟨⟨hl0, by simpa using hlen1, by simpa using hlen2, ?_, ?_, ?_, ?_⟩,
    rfl, rfl, rfl, rfl⟩
  · show rr.size + 1 =
      (rr.numberOfTasksInEachQueue.set item.priority.toNat
        (rr.numberOfTasksInEachQueue.getD item.priority.toNat 0 + 1)).sum
    rw [sum_set_add_one _ _ (by omega), hsum]
  · show (if rr.size = 0 then item.priority
        else rr.currentPriorityToRetrieve) = -1 ↔ rr.size + 1 = 0
    constructor
    · intro hc
      exfalso
      by_cases hz : rr.size = 0
      · rw [if_pos hz] at hc
        omega
      · rw [if_neg hz] at hc
        have := (hcur2 hz).1
        omega
    · intro hc
      omega
  · show rr.size + 1 ≠ 0 → _ ∧ _ ∧
      0 < (rr.numberOfTasksInEachQueue.set item.priority.toNat
        (rr.numberOfTasksInEachQueue.getD item.priority.toNat 0 + 1)).getD
        (if rr.size = 0 then item.priority
          else rr.currentPriorityToRetrieve).toNat 0
    intro hsz
    by_cases hz : rr.size = 0
    · rw [if_pos hz]
      refine ⟨h1.1, h1.2, ?_⟩
      rw [getD_set_self _ _ _ _ (by omega)]
      have hge := counts_nonneg_of_sub _ _ _ hsub (Eq.symm (by omega))
        item.priority.toNat (by omega)
      omega
    · rw [if_neg hz]
      obtain ⟨hg1, hg2, hg3⟩ := hcur2 hz
      refine ⟨hg1, hg2, ?_⟩
      by_cases hpe : item.priority.toNat = rr.currentPriorityToRetrieve.toNat
      · rw [← hpe, getD_set_self _ _ _ _ (by omega)]
        rw [← hpe] at hg3
        omega
      · rw [getD_set_ne _ _ _ _ _ hpe]
        exact hg3
  · show ∀ p, p < rr.limitPriority.toNat → subQueueOkAt _ _ p
    intro p hp
    unfold subQueueOkAt
    by_cases hpe : item.priority.toNat = p
    · subst hpe
      rw [getD_set_self _ _ _ _ (by omega),
        getD_set_self _ _ _ _ (by omega)]
      refine ⟨hc2, hr2, ?_⟩
      rw [hl2]
      simp only [List.length_append, List.length_cons, List.length_nil]
      rw [hcnt]
      push_cast
      ring
    · rw [getD_set_ne _ _ _ _ _ hpe, getD_set_ne _ _ _ _ _ hpe]
      have := hsub p (by simpa using hp)
      unfold subQueueOkAt at this
      exact this

theorem sum_nonpos_of_getD (l : List Int)
    (h : ∀ p, p < l.length → l.getD p 0 ≤ 0) : l.sum ≤ 0 := by
  induction l with
  | nil => simp
  | cons a t ih =>
      have ha := h 0 (by simp)
      simp only [List.getD_cons_zero] at ha
      have ht := ih (by
        intro p hp
        have := h (p + 1) (by simpa using hp)
        simpa using this)
      rw [List.sum_cons]
      omega

theorem getD_replicate_of_lt {α : Type} (k p : Nat) (a d : α) (h : p < k) :
    (List.replicate k a).getD p d = a := by
  rw [List.getD_eq_getElem _ _ (by simpa using h)]
  simp

theorem rr_pop_eq (rr : RoundRobinPriorityQueue) (q q' : LinkedSlice)
    (y : Nat) (hrun : rr.running = true) (hsz : ¬ rr.size = 0)
    (hq : rr.queues.getD rr.currentPriorityToRetrieve.toNat none = some q)
    (hpop : q.popOrWaitTillClose = .item ⟨y, 0⟩ q') :
    rr.popOrWaitTillClose =
      .item ⟨y, rr.currentPriorityToRetrieve⟩ (rrPopState rr q') := by
  unfold RoundRobinPriorityQueue.popOrWaitTillClose
  rw [if_neg (by simp [hrun])]
  rw [if_neg hsz, hq]
  show (match q.popOrWaitTillClose with
    | .closed => PopRes.closed
    | .blocked => PopRes.blocked
    | .fault => PopRes.fault
    | .item qitem q2 => _) = _
  rw [hpop]
  show PopRes.item _ _ = _
  unfold rrPopState rrCursorAfter rrCountsAfter
  rfl

theorem rr_scan_spec (counts : List Int) (cur limit : Int)
    (hcur0 : 0 ≤ cur) (hcurl : cur < limit)
    (hlen : counts.length = limit.toNat) (hpos : 0 < counts.sum) :
    ∃ k : Nat, k < limit.toNat ∧ 0 < counts.getD k 0 ∧
      (if (if cur - 1 < 0 then (-1 : Int)
           else findFirstPos counts (cur - 1).toNat) = -1
       then findFirstPosGE counts cur.toNat (limit - 1).toNat
       else if cur - 1 < 0 then (-1 : Int)
         else findFirstPos counts (cur - 1).toNat) = (k : Int) := by
  by_cases hc1 : cur - 1 < 0
  · rw [if_pos hc1, if_pos rfl]
    rcases findFirstPosGE_spec counts cur.toNat (limit - 1).toNat with
      ⟨h1, h2⟩ | ⟨k, hk0, hk1, hk2, hk3⟩
    · exfalso
      have hall : ∀ p, p < counts.length → counts.getD p 0 ≤ 0 := by
        intro p hp
        exact h2 p (by omega) (by omega)
      have := sum_nonpos_of_getD counts hall
      omega
    · exact ⟨k, by omega, hk3, hk2⟩
  · rw [if_neg hc1]
    rcases findFirstPos_spec counts (cur - 1).toNat with
      ⟨h1, h2⟩ | ⟨k, hk1, hk2, hk3⟩
    · rw [h1, if_pos rfl]
      rcases findFirstPosGE_spec counts cur.toNat (limit - 1).toNat with
        ⟨g1, g2⟩ | ⟨k, hk0, hk1, hk2, hk3⟩
      · exfalso
        have hall : ∀ p, p < counts.length → counts.getD p 0 ≤ 0 := by
          intro p hp
          by_cases hpc : p < cur.toNat
          · exact h2 p (by omega)
          · exact g2 p (by omega) (by omega)
        have := sum_nonpos_of_getD counts hall
        omega
      · exact ⟨k, by omega, hk3, hk2⟩
    · rw [hk2, if_neg (by omega)]
      exact ⟨k, by omega, hk3, rfl⟩

theorem rr_pop_ok (rr : RoundRobinPriorityQueue) (hinv : RRInv rr)
    (hrun : rr.running = true) (hsz : ¬ rr.size = 0) :
    ∃ y q', rr.popOrWaitTillClose =
      .item ⟨y, rr.currentPriorityToRetrieve⟩ (rrPopState rr q') ∧
      RRInv (rrPopState rr q') ∧ (rrPopState rr q').size = rr.size - 1 ∧
      (rrPopState rr q').sizeLimit = rr.sizeLimit ∧
      (rrPopState rr q').limitPriority = rr.limitPriority ∧
      (rrPopState rr q').running = rr.running := by
  obtain ⟨hl0, hlen1, hlen2, hsum, hcur1, hcur2, hsub⟩ := hinv
  obtain ⟨hg1, hg2, hg3⟩ := hcur2 hsz
  have hclt : rr.currentPriorityToRetrieve.toNat < rr.limitPriority.toNat := by
    omega
  have hsubc := hsub rr.currentPriorityToRetrieve.toNat hclt
  unfold subQueueOkAt at hsubc
  cases hq : rr.queues.getD rr.currentPriorityToRetrieve.toNat none with
  | none =>
      rw [hq] at hsubc
      omega
  | some q =>
      rw [hq] at hsubc
      obtain ⟨hcq, hrq, hcnt⟩ := hsubc
      have hne : q.toList ≠ [] := by
        intro hnil
        rw [hnil] at hcnt
        simp only [List.length_nil, Nat.cast_zero] at hcnt
        omega
      obtain ⟨y, ys, hyys⟩ := List.exists_cons_of_ne_nil hne
      obtain ⟨q', hpop, hrq', hcq', hl'⟩ := ls_pop_ok q y ys hrq hcq hyys
      have heq := rr_pop_eq rr q q' y hrun hsz hq hpop
      have hcntys : rr.numberOfTasksInEachQueue.getD
          rr.currentPriorityToRetrieve.toNat 0 = (ys.length : Int) + 1 := by
        rw [hcnt, hyys]
        simp
      have hnn := counts_nonneg_of_sub _ _ _ hsub (by omega)
      have hsz0 : 0 < rr.size := by
        rw [hsum]
        rcases lt_or_eq_of_le (sum_nonneg_of_getD _ hnn) with h | h
        · exact h
        · rw [hsum] at hsz
          omega
      have hsumAfter : (rrCountsAfter rr).sum =
          rr.numberOfTasksInEachQueue.sum - 1 := by
        unfold rrCountsAfter
        exact sum_set_sub_one _ _ (by omega)
      have hlenAfter : (rrCountsAfter rr).length =
          rr.limitPriority.toNat := by
        unfold rrCountsAfter
        simpa using hlen1
      have hnnAfter : ∀ p, p < (rrCountsAfter rr).length →
          0 ≤ (rrCountsAfter rr).getD p 0 := by
        intro p hp
        unfold rrCountsAfter
        by_cases hpe : rr.currentPriorityToRetrieve.toNat = p
        · subst hpe
          rw [getD_set_self _ _ _ _ (by omega)]
          omega
        · rw [getD_set_ne _ _ _ _ _ hpe]
          unfold rrCountsAfter at hp
          simp only [List.length_set] at hp
          exact hnn p hp
      refine ⟨y, q', heq, ?_, ?_, rfl, rfl, rfl⟩
      swap
      · show rr.size - 1 = rr.size - 1
        rfl
      refine ⟨hl0, ?_, ?_, ?_, ?_, ?_, ?_⟩
      · show (rrCountsAfter rr).length = _
        exact hlenAfter
      · show (rr.queues.set _ _).length = _
        simpa using hlen2
      · show rr.size - 1 = (rrCountsAfter rr).sum
        rw [hsumAfter, hsum]
      · show rrCursorAfter rr = -1 ↔ rr.size - 1 = 0
        unfold rrCursorAfter
        by_cases hz : rr.size - 1 = 0
        · rw [if_pos hz]
          simp [hz]
        · rw [if_neg hz]
          have hposAfter : 0 < (rrCountsAfter rr).sum := by
            rw [hsumAfter, ← hsum]
            omega
          obtain ⟨k, hk1, hk2, hk3⟩ := rr_scan_spec (rrCountsAfter rr)
            rr.currentPriorityToRetrieve rr.limitPriority hg1 hg2
            hlenAfter hposAfter
          rw [hk3]
          constructor
          · intro hc
            omega
          · intro hc
            exact absurd hc hz
      · show rr.size - 1 ≠ 0 → 0 ≤ rrCursorAfter rr ∧
          rrCursorAfter rr < rr.limitPriority ∧
          0 < (rrCountsAfter rr).getD (rrCursorAfter rr).toNat 0
        intro hz
        have hposAfter : 0 < (rrCountsAfter rr).sum := by
          rw [hsumAfter, ← hsum]
          omega
        obtain ⟨k, hk1, hk2, hk3⟩ := rr_scan_spec (rrCountsAfter rr)
          rr.currentPriorityToRetrieve rr.limitPriority hg1 hg2
          hlenAfter hposAfter
        unfold rrCursorAfter
        rw [if_neg hz, hk3]
        refine ⟨by omega, by omega, ?_⟩
        have : ((k : Int)).toNat = k := by omega
        rw [this]
        exact hk2
      · show ∀ p, p < rr.limitPriority.toNat →
          subQueueOkAt (rrCountsAfter rr) (rr.queues.set
            rr.currentPriorityToRetrieve.toNat (some q')) p
        intro p hp
        unfold subQueueOkAt rrCountsAfter
        by_cases hpe : rr.currentPriorityToRetrieve.toNat = p
        · subst hpe
          rw [getD_set_self _ _ _ _ (by omega),
            getD_set_self _ _ _ _ (by omega)]
          refine ⟨hcq', hrq', ?_⟩
          rw [hl', hcntys]
          omega
        · rw [getD_set_ne _ _ _ _ _ hpe, getD_set_ne _ _ _ _ _ hpe]
          have := hsub p hp
          unfold subQueueOkAt at this
          exact this

theorem rr_pop_sound (rr : RoundRobinPriorityQueue) (it : QItem)
    (rr' : RoundRobinPriorityQueue) (hinv : RRInv rr)
    (h : rr.popOrWaitTillClose = .item it rr') :
    RRInv rr' ∧ rr'.size = rr.size - 1 ∧ rr'.sizeLimit = rr.sizeLimit ∧
      rr'.limitPriority = rr.limitPriority ∧ rr'.running = rr.running := by
  have hrun : rr.running = true := by
    by_contra hc
    unfold RoundRobinPriorityQueue.popOrWaitTillClose at h
    rw [if_pos (by simpa using hc)] at h
    exact absurd h (by simp)
  have hsz : ¬ rr.size = 0 := by
    intro hc
    unfold RoundRobinPriorityQueue.popOrWaitTillClose at h
    rw [if_neg (by simp [hrun]), if_pos hc] at h
    exact absurd h (by simp)
  obtain ⟨y, q', heq, hinv', hs, hsl, hlp, hr⟩ := rr_pop_ok rr hinv hrun hsz
  rw [heq] at h
  have h2 : rrPopState rr q' = rr' := by
    cases h
    rfl
  rw [← h2]
  exact ⟨hinv', hs, hsl, hlp, hr⟩

theorem rr_push_succeeds (rr : RoundRobinPriorityQueue) (item : QItem)
    (hinv : RRInv rr) (hrun : rr.running = true)
    (hp0 : 0 ≤ item.priority) (hpl : item.priority < rr.limitPriority)
    (hsz : ¬ rr.size = rr.sizeLimit) :
    ∃ rr', rr.pushOrError item = .ok rr' := by
  obtain ⟨hl0, hlen1, hlen2, hsum, hcur1, hcur2, hsub⟩ := hinv
  have hplt : item.priority.toNat < rr.limitPriority.toNat := by omega
  obtain ⟨hcq, hrq, hcnt⟩ := subQueueOkAt_q _ _ item.priority.toNat
    (hsub item.priority.toNat (by omega))
  obtain ⟨q2, hq2, _, _, _⟩ := ls_push_ok
    ((rr.queues.getD item.priority.toNat none).getD NewLinkedSlice) item
    hrq hcq
  refine ⟨rrPushState rr item q2, ?_⟩
  unfold RoundRobinPriorityQueue.pushOrError rrPushState
  rw [if_neg (by omega), if_neg (by simp [hrun]), if_neg hsz]
  show (match ((rr.queues.getD item.priority.toNat none).getD
      NewLinkedSlice).pushOrError item with
    | .error e => Except.error e
    | .ok q' => _) = _
  rw [hq2]

theorem rr_init_inv (sl n : Int) (rr : RoundRobinPriorityQueue)
    (h : NewRoundRobinPriorityQueue sl n = .ok rr) : RRInv rr := by
  unfold NewRoundRobinPriorityQueue at h
  by_cases hc : sl ≤ 0 ∨ n ≤ 0
  · rw [if_pos hc] at h
    exact absurd h (by simp)
  rw [if_neg hc] at h
  push_neg at hc
  simp only [Except.ok.injEq] at h
  subst h
  refine ⟨by show (0 : Int) < n; omega, by simp, by simp, ?_, by simp,
    by simp, ?_⟩
  · show (0 : Int) = (List.replicate n.toNat (0 : Int)).sum
    simp
  · intro p hp
    unfold subQueueOkAt
    rw [getD_replicate_of_lt _ _ _ _ (by simpa using hp)]
    rw [getD_replicate_of_lt _ _ _ _ (by simpa using hp)]

theorem rr_reach_inv (rr : RoundRobinPriorityQueue) (h : RRReach rr) :
    RRInv rr := by
  induction h with
  | init sl n rr0 h0 => exact rr_init_inv sl n rr0 h0
  | push rr0 item rr1 _ hstep ih => exact (rr_push_sound rr0 item rr1 ih hstep).1
  | pop rr0 it rr1 _ hstep ih => exact (rr_pop_sound rr0 it rr1 ih hstep).1

/-! ## STRICT variant invariant preservation -/

theorem pq_push_eq (pq : PriorityQueue) (item : QItem) (q' : LinkedSlice)
    (hadm : ¬ (item.priority < 0 ∨ item.priority ≥ pq.limitPriority))
    (hrun : pq.running = true) (hsz : ¬ pq.size = pq.sizeLimit)
    (hq2 : ((pq.queues.getD item.priority.toNat none).getD
      NewLinkedSlice).pushOrError item = .ok q') :
    pq.pushOrError item = .ok (pqPushState pq item q') := by
  unfold PriorityQueue.pushOrError pqPushState
  rw [if_neg hadm, if_neg (by simp [hrun]), if_neg hsz]
  show (match ((pq.queues.getD item.priority.toNat none).getD
      NewLinkedSlice).pushOrError item with
    | .error e => Except.error e
    | .ok q2 => _) = _
  rw [hq2]

theorem pq_push_sound (pq : PriorityQueue) (item : QItem)
    (pq' : PriorityQueue) (hinv : PQInv pq)
    (h : pq.pushOrError item = .ok pq') :
    PQInv pq' ∧ pq'.size = pq.size + 1 ∧ pq'.sizeLimit = pq.sizeLimit ∧
      pq'.limitPriority = pq.limitPriority ∧ pq'.running = pq.running := by
  obtain ⟨hl0, hlen1, hlen2, hsum, hsub⟩ := hinv
  unfold PriorityQueue.pushOrError at h
  by_cases h1 : item.priority < 0 ∨ item.priority ≥ pq.limitPriority
  · rw [if_pos h1] at h
    exact absurd h (by simp)
  rw [if_neg h1] at h
  push_neg at h1
  by_cases h2 : pq.running = true
  swap
  · rw [if_pos (by simpa using h2)] at h
    exact absurd h (by simp)
  rw [if_neg (by simp [h2])] at h
  by_cases h3 : pq.size = pq.sizeLimit
  · rw [if_pos h3] at h
    exact absurd h (by simp)
  rw [if_neg h3] at h
  have hplt : item.priority.toNat < pq.limitPriority.toNat := by omega
  obtain ⟨hcq, hrq, hcnt⟩ := subQueueOkAt_q _ _ item.priority.toNat
    (hsub item.priority.toNat (by omega))
  obtain ⟨q2, hq2, hr2, hc2, hl2⟩ := ls_push_ok
    ((pq.queues.getD item.priority.toNat none).getD NewLinkedSlice) item
    hrq hcq
  simp only [] at h
  rw [hq2] at h
  simp only [Except.ok.injEq] at h
  subst h
  refine ⟨⟨hl0, by simpa using hlen1, by simpa using hlen2, ?_, ?_⟩,
    rfl, rfl, rfl, rfl⟩
  · show pq.size + 1 =
      (pq.numberOfTasksInEachQueue.set item.priority.toNat
        (pq.numberOfTasksInEachQueue.getD item.priority.toNat 0 + 1)).sum
    rw [sum_set_add_one _ _ (by omega), hsum]
  · show ∀ p, p < pq.limitPriority.toNat → subQueueOkAt _ _ p
    intro p hp
    unfold subQueueOkAt
    by_cases hpe : item.priority.toNat = p
    · subst hpe
      rw [getD_set_self _ _ _ _ (by omega),
        getD_set_self _ _ _ _ (by omega)]
      refine ⟨hc2, hr2, ?_⟩
      rw [hl2]
      simp only [List.length_append, List.length_cons, List.length_nil]
      rw [hcnt]
      push_cast
      ring
    · rw [getD_set_ne _ _ _ _ _ hpe, getD_set_ne _ _ _ _ _ hpe]
      have := hsub p (by simpa using hp)
      unfold subQueueOkAt at this
      exact this

theorem pq_push_succeeds (pq : PriorityQueue) (item : QItem)
    (hinv : PQInv pq) (hrun : pq.running = true)
    (hp0 : 0 ≤ item.priority) (hpl : item.priority < pq.limitPriority)
    (hsz : ¬ pq.size = pq.sizeLimit) :
    ∃ pq', pq.pushOrError item = .ok pq' := by
  obtain ⟨hl0, hlen1, hlen2, hsum, hsub⟩ := hinv
  have hplt : item.priority.toNat < pq.limitPriority.toNat := by omega
  obtain ⟨hcq, hrq, hcnt⟩ := subQueueOkAt_q _ _ item.priority.toNat
    (hsub item.priority.toNat (by omega))
  obtain ⟨q2, hq2, _, _, _⟩ := ls_push_ok
    ((pq.queues.getD item.priority.toNat none).getD NewLinkedSlice) item
    hrq hcq
  exact ⟨pqPushState pq item q2, pq_push_eq pq item q2 (by omega) hrun hsz hq2⟩

theorem pq_pop_eq (pq : PriorityQueue) (q q' : LinkedSlice) (y : Nat)
    (hrun : pq.running = true) (hsz : ¬ pq.size = 0)
    (hq : pq.queues.getD (pqPopP pq).toNat none = some q)
    (hpop : q.popOrWaitTillClose = .item ⟨y, 0⟩ q') :
    pq.popOrWaitTillClose = .item ⟨y, pqPopP pq⟩ (pqPopState pq q') := by
  unfold PriorityQueue.popOrWaitTillClose
  rw [if_neg (by simp [hrun]), if_neg hsz]
  show (match pq.queues.getD (pqPopP pq).toNat none with
    | none => PopRes.fault
    | some q2 =>
        match q2.popOrWaitTillClose with
        | .closed => PopRes.closed
        | .blocked => PopRes.blocked
        | .fault => PopRes.fault
        | .item qitem q3 => _) = _
  rw [hq]
  show (match q.popOrWaitTillClose with
    | .closed => PopRes.closed
    | .blocked => PopRes.blocked
    | .fault => PopRes.fault
    | .item qitem q3 => _) = _
  rw [hpop]
  show PopRes.item _ _ = _
  unfold pqPopState pqPopP
  rfl

theorem pq_pop_ok (pq : PriorityQueue) (hinv : PQInv pq)
    (hrun : pq.running = true) (hsz : ¬ pq.size = 0) :
    ∃ y q', pq.popOrWaitTillClose =
      .item ⟨y, pqPopP pq⟩ (pqPopState pq q') ∧
      PQInv (pqPopState pq q') ∧ (pqPopState pq q').size = pq.size - 1 ∧
      (pqPopState pq q').sizeLimit = pq.sizeLimit ∧
      (pqPopState pq q').limitPriority = pq.limitPriority ∧
      (pqPopState pq q').running = pq.running ∧
      0 ≤ pqPopP pq ∧ pqPopP pq < pq.limitPriority := by
  obtain ⟨hl0, hlen1, hlen2, hsum, hsub⟩ := hinv
  have hnn := counts_nonneg_of_sub _ _ _ hsub (by omega)
  have hpos : 0 < pq.numberOfTasksInEachQueue.sum := by
    rcases lt_or_eq_of_le (sum_nonneg_of_getD _ hnn) with h | h
    · exact h
    · rw [hsum] at hsz
      omega
  have hscan := findFirstPos_spec pq.numberOfTasksInEachQueue
    (pq.limitPriority - 1).toNat
  rcases hscan with ⟨h1, h2⟩ | ⟨k, hk1, hk2, hk3⟩
  · exfalso
    have hall : ∀ p, p < pq.numberOfTasksInEachQueue.length →
        pq.numberOfTasksInEachQueue.getD p 0 ≤ 0 := by
      intro p hp
      exact h2 p (by omega)
    have := sum_nonpos_of_getD _ hall
    omega
  · have hkP : pqPopP pq = (k : Int) := hk2
    have hkl : k < pq.limitPriority.toNat := by omega
    have hsubc := hsub k hkl
    unfold subQueueOkAt at hsubc
    have hkn : ((k : Int)).toNat = k := by omega
    cases hq : pq.queues.getD k none with
    | none =>
        rw [hq] at hsubc
        omega
    | some q =>
        rw [hq] at hsubc
        obtain ⟨hcq, hrq, hcnt⟩ := hsubc
        have hne : q.toList ≠ [] := by
          intro hnil
          rw [hnil] at hcnt
          simp only [List.length_nil, Nat.cast_zero] at hcnt
          omega
        obtain ⟨y, ys, hyys⟩ := List.exists_cons_of_ne_nil hne
        obtain ⟨q', hpop, hrq', hcq', hl'⟩ := ls_pop_ok q y ys hrq hcq hyys
        have heq := pq_pop_eq pq q q' y hrun hsz
          (by rw [hkP, hkn]; exact hq) hpop
        have hcntys : pq.numberOfTasksInEachQueue.getD k 0 =
            (ys.length : Int) + 1 := by
          rw [hcnt, hyys]
          simp
        refine ⟨y, q', heq, ?_, ?_, rfl, rfl, rfl, by omega, by omega⟩
        swap
        · show pq.size - 1 = pq.size - 1
          rfl
        refine ⟨hl0, ?_, ?_, ?_, ?_⟩
        · show (pq.numberOfTasksInEachQueue.set (pqPopP pq).toNat _).length = _
          simpa using hlen1
        · show (pq.queues.set (pqPopP pq).toNat _).length = _
          simpa using hlen2
        · show pq.size - 1 = (pq.numberOfTasksInEachQueue.set
            (pqPopP pq).toNat
            (pq.numberOfTasksInEachQueue.getD (pqPopP pq).toNat 0 - 1)).sum
          rw [hkP, hkn]
          rw [sum_set_sub_one _ _ (by omega), hsum]
        · show ∀ p, p < pq.limitPriority.toNat → subQueueOkAt
            (pq.numberOfTasksInEachQueue.set (pqPopP pq).toNat
              (pq.numberOfTasksInEachQueue.getD (pqPopP pq).toNat 0 - 1))
            (pq.queues.set (pqPopP pq).toNat (some q')) p
          intro p hp
          rw [hkP, hkn]
          unfold subQueueOkAt
          by_cases hpe : k = p
          · subst hpe
            rw [getD_set_self _ _ _ _ (by omega),
              getD_set_self _ _ _ _ (by omega)]
            refine ⟨hcq', hrq', ?_⟩
            rw [hl', hcntys]
            omega
          · rw [getD_set_ne _ _ _ _ _ hpe, getD_set_ne _ _ _ _ _ hpe]
            have := hsub p hp
            unfold subQueueOkAt at this
            exact this

theorem pq_pop_sound (pq : PriorityQueue) (it : QItem)
    (pq' : PriorityQueue) (hinv : PQInv pq)
    (h : pq.popOrWaitTillClose = .item it pq') :
    PQInv pq' ∧ pq'.size = pq.size - 1 ∧ pq'.sizeLimit = pq.sizeLimit ∧
      pq'.limitPriority = pq.limitPriority ∧ pq'.running = pq.running := by
  have hrun : pq.running = true := by
    by_contra hc
    unfold PriorityQueue.popOrWaitTillClose at h
    rw [if_pos (by simpa using hc)] at h
    exact absurd h (by simp)
  have hsz : ¬ pq.size = 0 := by
    intro hc
    unfold PriorityQueue.popOrWaitTillClose at h
    rw [if_neg (by simp [hrun]), if_pos hc] at h
    exact absurd h (by simp)
  obtain ⟨y, q', heq, hinv', hs, hsl, hlp, hr, _, _⟩ :=
    pq_pop_ok pq hinv hrun hsz
  rw [heq] at h
  have h2 : pqPopState pq q' = pq' := by
    cases h
    rfl
  rw [← h2]
  exact ⟨hinv', hs, hsl, hlp, hr⟩

theorem pq_init_inv (sl n : Int) (pq : PriorityQueue)
    (h : NewPriorityQueue sl n = .ok pq) : PQInv pq := by
  unfold NewPriorityQueue at h
  by_cases hc : sl ≤ 0 ∨ n ≤ 0
  · rw [if_pos hc] at h
    exact absurd h (by simp)
  rw [if_neg hc] at h
  push_neg at hc
  simp only [Except.ok.injEq] at h
  subst h
  refine ⟨by show (0 : Int) < n; omega, by simp, by simp, ?_, ?_⟩
  · show (0 : Int) = (List.replicate n.toNat (0 : Int)).sum
    simp
  · intro p hp
    unfold subQueueOkAt
    rw [getD_replicate_of_lt _ _ _ _ (by simpa using hp)]
    rw [getD_replicate_of_lt _ _ _ _ (by simpa using hp)]

theorem pq_reach_inv (pq : PriorityQueue) (h : PQReach pq) : PQInv pq := by
  induction h with
  | init sl n pq0 h0 => exact pq_init_inv sl n pq0 h0
  | push pq0 item pq1 _ hstep ih => exact (pq_push_sound pq0 item pq1 ih hstep).1
  | pop pq0 it pq1 _ hstep ih => exact (pq_pop_sound pq0 it pq1 ih hstep).1

/-- C3: for every multi-queue variant constructed with `sizeLimit > 0`
and `N > 0`, after any sequence of successful Push and Pop operations,
`size` equals the sum of `counts[i]` over `i ∈ [0, N)`; and for the
ROUNDROBIN variant additionally `cursor == -1` iff `size == 0`, and
whenever `size > 0` the cursor priority has `counts[cursor] > 0`. -/
theorem c3_multiqueue_invariants :
    (∀ rr : RoundRobinPriorityQueue, RRReach rr →
      rr.size = rr.numberOfTasksInEachQueue.sum ∧
      (rr.currentPriorityToRetrieve = -1 ↔ rr.size = 0) ∧
      (0 < rr.size → 0 < rr.numberOfTasksInEachQueue.getD
        rr.currentPriorityToRetrieve.toNat 0)) ∧
    (∀ pq : PriorityQueue, PQReach pq →
      pq.size = pq.numberOfTasksInEachQueue.sum) := by
  constructor
  · intro rr h
    obtain ⟨_, _, _, hsum, hcur1, hcur2, _⟩ := rr_reach_inv rr h
    exact ⟨hsum, hcur1, fun hpos => (hcur2 (by omega)).2.2⟩
  · intro pq h
    exact (pq_reach_inv pq h).2.2.2.1

/-! ## Heap sift lemmas: preserved fields -/

theorem up_fields (hpq : HeapPriorityQueue) (i : Nat) :
    (hpq.up i).size = hpq.size ∧ (hpq.up i).sizeLimit = hpq.sizeLimit ∧
    (hpq.up i).running = hpq.running ∧
    (hpq.up i).arr.length = hpq.arr.length := by
  induction hpq, i using HeapPriorityQueue.up.induct with
  | case1 hpq i h ih =>
      unfold HeapPriorityQueue.up
      rw [dif_pos h]
      obtain ⟨i1, i2, i3, i4⟩ := ih
      refine ⟨by rw [i1]; rfl, by rw [i2]; rfl, by rw [i3]; rfl, ?_⟩
      rw [i4]
      simp [HeapPriorityQueue.swap]
  | case2 hpq i h =>
      unfold HeapPriorityQueue.up
      rw [dif_neg h]
      exact ⟨rfl, rfl, rfl, rfl⟩

theorem down_fields (hpq : HeapPriorityQueue) (c : Nat) :
    (hpq.down c).size = hpq.size ∧ (hpq.down c).sizeLimit = hpq.sizeLimit ∧
    (hpq.down c).running = hpq.running ∧
    (hpq.down c).arr.length = hpq.arr.length := by
  induction hpq, c using HeapPriorityQueue.down.induct with
  | case1 hpq c h =>
      unfold HeapPriorityQueue.down
      rw [if_pos h]
      exact ⟨rfl, rfl, rfl, rfl⟩
  | case2 hpq c h hne ih =>
      unfold HeapPriorityQueue.down
      rw [if_neg h, dif_pos hne]
      obtain ⟨i1, i2, i3, i4⟩ := ih
      refine ⟨by rw [i1]; rfl, by rw [i2]; rfl, by rw [i3]; rfl, ?_⟩
      rw [i4]
      simp [HeapPriorityQueue.swap]
  | case3 hpq c h hne =>
      unfold HeapPriorityQueue.down
      rw [if_neg h, dif_neg hne]
      exact ⟨rfl, rfl, rfl, rfl⟩

theorem hpq_push_eq (hpq : HeapPriorityQueue) (item : QItem)
    (hrun : hpq.running = true) (hsz : ¬ hpq.size = hpq.sizeLimit) :
    hpq.pushOrError item = .ok
      { ({ hpq with arr := hpq.arr.set hpq.size item } :
          HeapPriorityQueue).up hpq.size with
        size := (({ hpq with arr := hpq.arr.set hpq.size item } :
          HeapPriorityQueue).up hpq.size).size + 1 } := by
  unfold HeapPriorityQueue.pushOrError
  rw [if_neg (by simp [hrun]), if_neg hsz]

theorem hpq_push_fields (hpq : HeapPriorityQueue) (item : QItem)
    (hpq' : HeapPriorityQueue) (h : hpq.pushOrError item = .ok hpq') :
    hpq'.size = hpq.size + 1 ∧ hpq'.sizeLimit = hpq.sizeLimit ∧
      hpq'.running = hpq.running ∧ hpq'.arr.length = hpq.arr.length := by
  have hrun : hpq.running = true := by
    by_contra hc
    unfold HeapPriorityQueue.pushOrError at h
    rw [if_pos (by simpa using hc)] at h
    exact absurd h (by simp)
  have hsz : ¬ hpq.size = hpq.sizeLimit := by
    intro hc
    unfold HeapPriorityQueue.pushOrError at h
    rw [if_neg (by simp [hrun]), if_pos hc] at h
    exact absurd h (by simp)
  rw [hpq_push_eq hpq item hrun hsz] at h
  simp only [Except.ok.injEq] at h
  subst h
  obtain ⟨f1, f2, f3, f4⟩ := up_fields
    { hpq with arr := hpq.arr.set hpq.size item } hpq.size
  refine ⟨?_, ?_, ?_, ?_⟩
  · show _ + 1 = hpq.size + 1
    rw [f1]
  · show _ = hpq.sizeLimit
    rw [f2]
  · show _ = hpq.running
    rw [f3]
  · show _ = hpq.arr.length
    rw [f4]
    simp

theorem hpq_push_full (hpq : HeapPriorityQueue) (item : QItem)
    (hrun : hpq.running = true) (hsz : hpq.size = hpq.sizeLimit) :
    hpq.pushOrError item = .error .full := by
  unfold HeapPriorityQueue.pushOrError
  rw [if_neg (by simp [hrun]), if_pos hsz]

theorem hpq_pop_eq (hpq : HeapPriorityQueue)
    (hrun : hpq.running = true) (hsz : ¬ hpq.size = 0) :
    hpq.popOrWaitTillClose = .item (hpq.arr.getD 0 MinQItem)
      (HeapPriorityQueue.down
        { hpq with
          arr := (hpq.arr.set 0 (hpq.arr.getD (hpq.size - 1) MinQItem)).set
            (hpq.size - 1) MinQItem
          size := hpq.size - 1 } 0) := by
  unfold HeapPriorityQueue.popOrWaitTillClose
  rw [if_neg (by simp [hrun]), if_neg hsz]

theorem hpq_pop_succeeds (hpq : HeapPriorityQueue)
    (hrun : hpq.running = true) (hsz : ¬ hpq.size = 0) :
    ∃ it hpq', hpq.popOrWaitTillClose = .item it hpq' ∧
      hpq'.size = hpq.size - 1 ∧ hpq'.sizeLimit = hpq.sizeLimit ∧
      hpq'.running = hpq.running ∧ hpq'.arr.length = hpq.arr.length := by
  obtain ⟨f1, f2, f3, f4⟩ := down_fields
    { hpq with
      arr := (hpq.arr.set 0 (hpq.arr.getD (hpq.size - 1) MinQItem)).set
        (hpq.size - 1) MinQItem
      size := hpq.size - 1 } 0
  refine ⟨hpq.arr.getD 0 MinQItem, _, hpq_pop_eq hpq hrun hsz, ?_, ?_, ?_, ?_⟩
  · rw [f1]
  · rw [f2]
  · rw [f3]
  · rw [f4]
    simp

theorem hpqPushAll_ok (items : List QItem) : ∀ hpq : HeapPriorityQueue,
    hpq.running = true → hpq.size + items.length ≤ hpq.sizeLimit →
    ∃ s, hpqPushAll hpq items = some s ∧ s.size = hpq.size + items.length ∧
      s.sizeLimit = hpq.sizeLimit ∧ s.running = true := by
  induction items with
  | nil =>
      intro hpq h1 h2
      exact ⟨hpq, rfl, by simp, rfl, h1⟩
  | cons it rest ih =>
      intro hpq h1 h2
      have hsz : ¬ hpq.size = hpq.sizeLimit := by
        simp only [List.length_cons] at h2
        omega
      have heq := hpq_push_eq hpq it h1 hsz
      obtain ⟨g1, g2, g3, g4⟩ := hpq_push_fields hpq it _ heq
      obtain ⟨s, hs1, hs2, hs3, hs4⟩ := ih _ (by rw [g3]; exact h1)
        (by rw [g1, g2]; simp only [List.length_cons] at h2; omega)
      refine ⟨s, ?_, ?_, ?_, hs4⟩
      · simp [hpqPushAll, heq, hs1]
      · rw [hs2, g1]
        simp only [List.length_cons]
        omega
      · rw [hs3, g2]

/-! ## Circular queue characterizations -/

theorem circ_push_eq (c : CircularQueue) (item : QItem)
    (hrun : c.running = true) (hfull : c.isFull = false) :
    c.pushOrError item = .ok
      { c with
        arr := c.arr.set c.head item.id
        head := c.getNextIndex c.head
        currentSize := c.currentSize + 1 } := by
  unfold CircularQueue.pushOrError
  rw [if_neg (by simp [hrun]), if_neg (by simp [hfull])]

theorem circ_push_full (c : CircularQueue) (item : QItem)
    (hrun : c.running = true) (hfull : c.isFull = true) :
    c.pushOrError item = .error .full := by
  unfold CircularQueue.pushOrError
  rw [if_neg (by simp [hrun]), if_pos hfull]

theorem circ_pop_eq (c : CircularQueue)
    (hrun : c.running = true) (hsz : c.isEmpty = false) :
    c.popOrWaitTillClose = .item { id := c.arr.getD c.tail 0, priority := 0 }
      { c with
        tail := c.getNextIndex c.tail
        currentSize := c.currentSize - 1 } := by
  unfold CircularQueue.popOrWaitTillClose
  rw [if_neg (by simp [hrun]), if_neg (by simp [hsz])]

theorem circPushAll_ok (items : List QItem) : ∀ c : CircularQueue,
    c.running = true → c.currentSize + items.length ≤ c.maxSize →
    ∃ s, circPushAll c items = some s ∧
      s.currentSize = c.currentSize + items.length ∧
      s.maxSize = c.maxSize ∧ s.running = true := by
  induction items with
  | nil =>
      intro c h1 h2
      exact ⟨c, rfl, by simp, rfl, h1⟩
  | cons it rest ih =>
      intro c h1 h2
      have hfull : c.isFull = false := by
        simp only [CircularQueue.isFull, beq_eq_false_iff_ne, ne_eq]
        simp only [List.length_cons] at h2
        omega
      have heq := circ_push_eq c it h1 hfull
      obtain ⟨s, hs1, hs2, hs3, hs4⟩ := ih
        { c with
          arr := c.arr.set c.head it.id
          head := c.getNextIndex c.head
          currentSize := c.currentSize + 1 }
        h1 (by
          show c.currentSize + 1 + rest.length ≤ c.maxSize
          simp only [List.length_cons] at h2
          omega)
      refine ⟨s, ?_, ?_, hs3, hs4⟩
      · simp [circPushAll, heq, hs1]
      · rw [hs2]
        simp only [List.length_cons]
        omega

/-! ## Multi-queue drain-free push lemmas -/

theorem rr_push_full (rr : RoundRobinPriorityQueue) (item : QItem)
    (hadm : ¬ (item.priority < 0 ∨ item.priority ≥ rr.limitPriority))
    (hrun : rr.running = true) (hsz : rr.size = rr.sizeLimit) :
    rr.pushOrError item = .error .full := by
  unfold RoundRobinPriorityQueue.pushOrError
  rw [if_neg hadm, if_neg (by simp [hrun]), if_pos hsz]

theorem pq_push_full (pq : PriorityQueue) (item : QItem)
    (hadm : ¬ (item.priority < 0 ∨ item.priority ≥ pq.limitPriority))
    (hrun : pq.running = true) (hsz : pq.size = pq.sizeLimit) :
    pq.pushOrError item = .error .full := by
  unfold PriorityQueue.pushOrError
  rw [if_neg hadm, if_neg (by simp [hrun]), if_pos hsz]

theorem rrPushAll_inv (items : List QItem) : ∀ rr : RoundRobinPriorityQueue,
    RRInv rr → rr.running = true →
    (∀ it ∈ items, 0 ≤ it.priority ∧ it.priority < rr.limitPriority) →
    rr.size + items.length ≤ rr.sizeLimit →
    ∃ rr', rrPushAll rr items = some rr' ∧ RRInv rr' ∧
      rr'.running = true ∧ rr'.size = rr.size + items.length ∧
      rr'.sizeLimit = rr.sizeLimit ∧
      rr'.limitPriority = rr.limitPriority := by
  induction items with
  | nil =>
      intro rr h1 h2 h3 h4
      exact ⟨rr, rfl, h1, h2, by simp, rfl, rfl⟩
  | cons it rest ih =>
      intro rr h1 h2 h3 h4
      simp only [List.length_cons] at h4
      have hadm := h3 it (by simp)
      obtain ⟨rr1, heq⟩ := rr_push_succeeds rr it h1 h2 hadm.1 hadm.2
        (by push_cast at h4 ⊢; omega)
      obtain ⟨hinv1, hs1, hsl1, hlp1, hr1⟩ := rr_push_sound rr it rr1 h1 heq
      obtain ⟨rr', ha1, ha2, ha3, ha4, ha5, ha6⟩ := ih rr1 hinv1
        (by rw [hr1]; exact h2)
        (by
          intro x hx
          rw [hlp1]
          exact h3 x (by simp [hx]))
        (by rw [hs1, hsl1]; push_cast at h4 ⊢; omega)
      refine ⟨rr', ?_, ha2, ha3, ?_, ?_, ?_⟩
      · simp [rrPushAll, heq, ha1]
      · rw [ha4, hs1]
        simp only [List.length_cons]
        push_cast
        omega
      · rw [ha5, hsl1]
      · rw [ha6, hlp1]

theorem pqPushAll_inv (items : List QItem) : ∀ pq : PriorityQueue,
    PQInv pq → pq.running = true →
    (∀ it ∈ items, 0 ≤ it.priority ∧ it.priority < pq.limitPriority) →
    pq.size + items.length ≤ pq.sizeLimit →
    ∃ pq', pqPushAll pq items = some pq' ∧ PQInv pq' ∧
      pq'.running = true ∧ pq'.size = pq.size + items.length ∧
      pq'.sizeLimit = pq.sizeLimit ∧
      pq'.limitPriority = pq.limitPriority := by
  induction items with
  | nil =>
      intro pq h1 h2 h3 h4
      exact ⟨pq, rfl, h1, h2, by simp, rfl, rfl⟩
  | cons it rest ih =>
      intro pq h1 h2 h3 h4
      simp only [List.length_cons] at h4
      have hadm := h3 it (by simp)
      obtain ⟨pq1, heq⟩ := pq_push_succeeds pq it h1 h2 hadm.1 hadm.2
        (by push_cast at h4 ⊢; omega)
      obtain ⟨hinv1, hs1, hsl1, hlp1, hr1⟩ := pq_push_sound pq it pq1 h1 heq
      obtain ⟨pq', ha1, ha2, ha3, ha4, ha5, ha6⟩ := ih pq1 hinv1
        (by rw [hr1]; exact h2)
        (by
          intro x hx
          rw [hlp1]
          exact h3 x (by simp [hx]))
        (by rw [hs1, hsl1]; push_cast at h4 ⊢; omega)
      refine ⟨pq', ?_, ha2, ha3, ?_, ?_, ?_⟩
      · simp [pqPushAll, heq, ha1]
      · rw [ha4, hs1]
        simp only [List.length_cons]
        push_cast
        omega
      · rw [ha5, hsl1]
      · rw [ha6, hlp1]

theorem rr_init_fields (sl n : Int) (rr : RoundRobinPriorityQueue)
    (h : NewRoundRobinPriorityQueue sl n = .ok rr) :
    rr.sizeLimit = sl ∧ rr.limitPriority = n ∧ rr.size = 0 ∧
      rr.running = true ∧ 0 < sl ∧ 0 < n := by
  unfold NewRoundRobinPriorityQueue at h
  by_cases hc : sl ≤ 0 ∨ n ≤ 0
  · rw [if_pos hc] at h
    exact absurd h (by simp)
  · rw [if_neg hc] at h
    push_neg at hc
    simp only [Except.ok.injEq] at h
    subst h
    exact ⟨rfl, rfl, rfl, rfl, by omega, by omega⟩

theorem pq_init_fields (sl n : Int) (pq : PriorityQueue)
    (h : NewPriorityQueue sl n = .ok pq) :
    pq.sizeLimit = sl ∧ pq.limitPriority = n ∧ pq.size = 0 ∧
      pq.running = true ∧ 0 < sl ∧ 0 < n := by
  unfold NewPriorityQueue at h
  by_cases hc : sl ≤ 0 ∨ n ≤ 0
  · rw [if_pos hc] at h
    exact absurd h (by simp)
  · rw [if_neg hc] at h
    push_neg at hc
    simp only [Except.ok.injEq] at h
    subst h
    exact ⟨rfl, rfl, rfl, rfl, by omega, by omega⟩

/-- C8: for every bounded queue (HPQ, CIRC, and both multi-queue
variants) constructed with capacity `c`, starting empty, a sequence of
`c` pushes with admissible priorities all succeed, the `(c+1)`-th push
returns `Full`, and after one successful Pop a subsequent Push succeeds
again. -/
theorem c8_bounded_capacity :
    (∀ (c : Nat) (items : List QItem), 0 < c → items.length = c →
      ∃ s, hpqPushAll (NewHeapPriorityQueue c) items = some s ∧
        (∀ extra : QItem, s.pushOrError extra = .error .full) ∧
        (∀ extra : QItem, ∃ it s' s'',
          s.popOrWaitTillClose = .item it s' ∧
          s'.pushOrError extra = .ok s'')) ∧
    (∀ (c : Nat) (items : List QItem), 0 < c → items.length = c →
      ∃ s, circPushAll (NewCircularQueue c) items = some s ∧
        (∀ extra : QItem, s.pushOrError extra = .error .full) ∧
        (∀ extra : QItem, ∃ it s' s'',
          s.popOrWaitTillClose = .item it s' ∧
          s'.pushOrError extra = .ok s'')) ∧
    (∀ (cap n : Int) (items : List QItem) (rr0 : RoundRobinPriorityQueue),
      NewRoundRobinPriorityQueue cap n = .ok rr0 →
      (∀ it ∈ items, 0 ≤ it.priority ∧ it.priority < n) →
      (items.length : Int) = cap →
      ∃ s, rrPushAll rr0 items = some s ∧
        (∀ extra : QItem, 0 ≤ extra.priority → extra.priority < n →
          s.pushOrError extra = .error .full) ∧
        (∀ extra : QItem, 0 ≤ extra.priority → extra.priority < n →
          ∃ it s' s'', s.popOrWaitTillClose = .item it s' ∧
            s'.pushOrError extra = .ok s'')) ∧
    (∀ (cap n : Int) (items : List QItem) (pq0 : PriorityQueue),
      NewPriorityQueue cap n = .ok pq0 →
      (∀ it ∈ items, 0 ≤ it.priority ∧ it.priority < n) →
      (items.length : Int) = cap →
      ∃ s, pqPushAll pq0 items = some s ∧
        (∀ extra : QItem, 0 ≤ extra.priority → extra.priority < n →
          s.pushOrError extra = .error .full) ∧
        (∀ extra : QItem, 0 ≤ extra.priority → extra.priority < n →
          ∃ it s' s'', s.popOrWaitTillClose = .item it s' ∧
            s'.pushOrError extra = .ok s'')) := by
  refine ⟨?_, ?_, ?_, ?_⟩
  · intro c items hc hlen
    obtain ⟨s, hs1, hs2, hs3, hs4⟩ := hpqPushAll_ok items
      (NewHeapPriorityQueue c) rfl
      (by show 0 + items.length ≤ c; omega)
    refine ⟨s, hs1, ?_, ?_⟩
    · intro extra
      apply hpq_push_full s extra hs4
      rw [hs2, hs3]
      show 0 + items.length = c
      omega
    · intro extra
      obtain ⟨it, s', hp1, hp2, hp3, hp4, _⟩ := hpq_pop_succeeds s hs4
        (by rw [hs2]; show ¬ 0 + items.length = 0; omega)
      have hrun' : s'.running = true := by rw [hp4]; exact hs4
      have hsz' : ¬ s'.size = s'.sizeLimit := by
        rw [hp2, hp3, hs2, hs3]
        show ¬ 0 + items.length - 1 = c
        omega
      exact ⟨it, s', _, hp1, hpq_push_eq s' extra hrun' hsz'⟩
  · intro c items hc hlen
    obtain ⟨s, hs1, hs2, hs3, hs4⟩ := circPushAll_ok items
      (NewCircularQueue c) rfl
      (by show 0 + items.length ≤ c; omega)
    refine ⟨s, hs1, ?_, ?_⟩
    · intro extra
      apply circ_push_full s extra hs4
      simp only [CircularQueue.isFull, beq_iff_eq]
      rw [hs2, hs3]
      show 0 + items.length = c
      omega
    · intro extra
      have hne : s.isEmpty = false := by
        simp only [CircularQueue.isEmpty, beq_eq_false_iff_ne, ne_eq]
        rw [hs2]
        show ¬ 0 + items.length = 0
        omega
      have hpop := circ_pop_eq s hs4 hne
      have hfull' : ({ s with
          tail := s.getNextIndex s.tail
          currentSize := s.currentSize - 1 } : CircularQueue).isFull
            = false := by
        simp only [CircularQueue.isFull, beq_eq_false_iff_ne, ne_eq]
        show ¬ s.currentSize - 1 = s.maxSize
        rw [hs2, hs3]
        show ¬ 0 + items.length - 1 = c
        omega
      exact ⟨_, _, _, hpop, circ_push_eq _ extra (by show s.running = true; exact hs4) hfull'⟩
  · intro cap n items rr0 hnew hadm hlen
    obtain ⟨hsl, hlp, hs0, hr0, hcap, hn⟩ := rr_init_fields cap n rr0 hnew
    have hinv0 := rr_init_inv cap n rr0 hnew
    obtain ⟨s, hs1, hinv, hrun, hsz, hslim, hlim⟩ := rrPushAll_inv items rr0
      hinv0 hr0 (by rw [hlp]; exact hadm) (by rw [hs0, hsl]; omega)
    refine ⟨s, hs1, ?_, ?_⟩
    · intro extra he0 hen
      refine rr_push_full s extra ?_ hrun ?_
      · rw [hlim, hlp]
        push_neg
        exact ⟨he0, hen⟩
      · rw [hsz, hslim, hs0, hsl]
        omega
    · intro extra he0 hen
      have hszne : ¬ s.size = 0 := by
        rw [hsz, hs0]
        omega
      obtain ⟨y, q', heq, hinv', hsize', hslim', hlim', hrun'⟩ :=
        rr_pop_ok s hinv hrun hszne
      obtain ⟨s'', hpush⟩ := rr_push_succeeds (rrPopState s q') extra hinv'
        (by rw [hrun']; exact hrun) he0
        (by rw [hlim', hlim, hlp]; exact hen)
        (by rw [hsize', hslim', hsz, hslim, hs0, hsl]; omega)
      exact ⟨_, _, s'', heq, hpush⟩
  · intro cap n items pq0 hnew hadm hlen
    obtain ⟨hsl, hlp, hs0, hr0, hcap, hn⟩ := pq_init_fields cap n pq0 hnew
    have hinv0 := pq_init_inv cap n pq0 hnew
    obtain ⟨s, hs1, hinv, hrun, hsz, hslim, hlim⟩ := pqPushAll_inv items pq0
      hinv0 hr0 (by rw [hlp]; exact hadm) (by rw [hs0, hsl]; omega)
    refine ⟨s, hs1, ?_, ?_⟩
    · intro extra he0 hen
      refine pq_push_full s extra ?_ hrun ?_
      · rw [hlim, hlp]
        push_neg
        exact ⟨he0, hen⟩
      · rw [hsz, hslim, hs0, hsl]
        omega
    · intro extra he0 hen
      have hszne : ¬ s.size = 0 := by
        rw [hsz, hs0]
        omega
      obtain ⟨y, q', heq, hinv', hsize', hslim', hlim', hrun', _, _⟩ :=
        pq_pop_ok s hinv hrun hszne
      obtain ⟨s'', hpush⟩ := pq_push_succeeds (pqPopState s q') extra hinv'
        (by rw [hrun']; exact hrun) he0
        (by rw [hlim', hlim, hlp]; exact hen)
        (by rw [hsize', hslim', hsz, hslim, hs0, hsl]; omega)
      exact ⟨_, _, s'', heq, hpush⟩

/-- Witness for C8: the four bounded-capacity behaviours at concrete
capacity/priority-bound choices. -/
theorem c8_bounded_capacity_witness :
    (∃ s, hpqPushAll (NewHeapPriorityQueue 2) [⟨1, 5⟩, ⟨2, 3⟩] = some s ∧
      (∀ extra : QItem, s.pushOrError extra = .error .full) ∧
      (∀ extra : QItem, ∃ it s' s'',
        s.popOrWaitTillClose = .item it s' ∧
        s'.pushOrError extra = .ok s'')) ∧
    (∃ s, circPushAll (NewCircularQueue 2) [⟨1, 0⟩, ⟨2, 0⟩] = some s ∧
      (∀ extra : QItem, s.pushOrError extra = .error .full) ∧
      (∀ extra : QItem, ∃ it s' s'',
        s.popOrWaitTillClose = .item it s' ∧
        s'.pushOrError extra = .ok s'')) ∧
    (∃ s, rrPushAll rrW [⟨1, 0⟩, ⟨2, 1⟩, ⟨3, 2⟩, ⟨4, 0⟩] = some s ∧
      (∀ extra : QItem, 0 ≤ extra.priority → extra.priority < 3 →
        s.pushOrError extra = .error .full) ∧
      (∀ extra : QItem, 0 ≤ extra.priority → extra.priority < 3 →
        ∃ it s' s'', s.popOrWaitTillClose = .item it s' ∧
          s'.pushOrError extra = .ok s'')) ∧
    (∃ s, pqPushAll pqW [⟨1, 0⟩, ⟨2, 1⟩, ⟨3, 2⟩, ⟨4, 0⟩] = some s ∧
      (∀ extra : QItem, 0 ≤ extra.priority → extra.priority < 3 →
        s.pushOrError extra = .error .full) ∧
      (∀ extra : QItem, 0 ≤ extra.priority → extra.priority < 3 →
        ∃ it s' s'', s.popOrWaitTillClose = .item it s' ∧
          s'.pushOrError extra = .ok s'')) :=
  ⟨c8_bounded_capacity.1 2 [⟨1, 5⟩, ⟨2, 3⟩] (by decide) (by decide),
   c8_bounded_capacity.2.1 2 [⟨1, 0⟩, ⟨2, 0⟩] (by decide) (by decide),
   c8_bounded_capacity.2.2.1 4 3 [⟨1, 0⟩, ⟨2, 1⟩, ⟨3, 2⟩, ⟨4, 0⟩] rrW rfl
     (by decide) (by decide),
   c8_bounded_capacity.2.2.2 4 3 [⟨1, 0⟩, ⟨2, 1⟩, ⟨3, 2⟩, ⟨4, 0⟩] pqW rfl
     (by decide) (by decide)⟩

/-- C7 (code bug evidence): the engine's second Close faults. The first
Close succeeds; the second `close(e.closeChan)` is a Go close of an
already-closed channel, which panics (modelled by `none`). -/
theorem c7_engine_double_close_panics :
    ∃ e', engineW.closeEngine = some e' ∧ e'.closeEngine = none := by
  refine ⟨_, rfl, ?_⟩
  rfl

/-- C9 counterexample: the priority `-(2^31) - 1` is admissible to HPQ
(its Push succeeds on a fresh open heap), yet the sentinel `MinQItem`
has a strictly greater priority. -/
theorem c9_sentinel_counterexample :
    (∃ s, (NewHeapPriorityQueue 1).pushOrError
      ⟨7, -(2 ^ 31) - 1⟩ = .ok s) ∧
    MinQItem.priority > -(2 ^ 31) - 1 := by
  constructor
  · exact ⟨_, hpq_push_eq (NewHeapPriorityQueue 1) ⟨7, -(2 ^ 31) - 1⟩ rfl
      (by decide)⟩
  · decide

/-- C9 amended: the sentinel's priority equals the smallest signed
32-bit integer, and it is never greater than any priority at least
`-(2^31)` — in particular any priority admissible to the multi-queue
variants (which lies in `[0, N)`); HPQ however admits arbitrary signed
(64-bit) priorities, and for priorities below `-(2^31)` the comparison
fails, as the counterexample shows. -/
theorem c9_sentinel_amended :
    MinQItem.priority = -(2 ^ 31) ∧
    ∀ p : Int, -(2 ^ 31) ≤ p → MinQItem.priority ≤ p := by
  refine ⟨rfl, ?_⟩
  intro p hp
  calc MinQItem.priority = -(2 ^ 31) := rfl
  _ ≤ p := hp

/-- Witness for the amended C9 at the concrete priority 0. -/
theorem c9_sentinel_amended_witness :
    -(2 ^ 31) ≤ (0 : Int) ∧ MinQItem.priority ≤ (0 : Int) :=
  ⟨by decide, c9_sentinel_amended.2 0 (by decide)⟩

/-- C10: for every task, whenever the published error is non-nil,
`Result` returns nil as the value — even if the user function returned a
non-nil value alongside the non-nil error — so a caller can never
observe a non-nil value paired with a non-nil error from `Result`. -/
theorem c10_result_nil_on_error {α ε : Type} (t : Task α ε)
    (r : Option α) (e : Option ε) (he : e ≠ none) :
    (t.set r e).Result = (none, e) := by
  unfold Task.Result Task.set
  rw [if_pos]
  exact Option.isSome_iff_ne_none.mpr he

/-- Witness for C10: a task whose function produced the value 5 next to
error 3 still reports no value from `Result`. -/
theorem c10_result_nil_on_error_witness :
    (some (3 : Nat) : Option Nat) ≠ none ∧
    ((newTask false 1 (fun _ a => (a, none)) (some 2) :
      Task Nat Nat).set (some 5) (some 3)).Result = (none, some 3) :=
  ⟨by decide, c10_result_nil_on_error
    (newTask false 1 (fun _ a => (a, none)) (some 2)) (some 5) (some 3)
    (by decide)⟩

/-! ## Heap-shape preservation -/

theorem getD_swap (l : List QItem) (i j k : Nat) (hi : i < l.length)
    (hj : j < l.length) :
    ((l.set i (l.getD j MinQItem)).set j (l.getD i MinQItem)).getD k
        MinQItem =
      if k = j then l.getD i MinQItem
      else if k = i then l.getD j MinQItem
      else l.getD k MinQItem := by
  by_cases hkj : k = j
  · subst hkj
    rw [if_pos rfl, getD_set_self _ _ _ _ (by simpa using hj)]
  · rw [if_neg hkj, getD_set_ne _ _ _ _ _ (fun hc => hkj hc.symm)]
    by_cases hki : k = i
    · subst hki
      rw [if_pos rfl, getD_set_self _ _ _ _ hi]
    · rw [if_neg hki, getD_set_ne _ _ _ _ _ (fun hc => hki hc.symm)]

theorem pAt_swap (hpq : HeapPriorityQueue) (i j k : Nat)
    (hi : i < hpq.arr.length) (hj : j < hpq.arr.length) :
    pAt (hpq.swap i j).arr k =
      if k = j then pAt hpq.arr i
      else if k = i then pAt hpq.arr j
      else pAt hpq.arr k := by
  unfold pAt HeapPriorityQueue.swap
  show (((hpq.arr.set i (hpq.arr.getD j MinQItem)).set j
      (hpq.arr.getD i MinQItem)).getD k MinQItem).priority = _
  rw [getD_swap hpq.arr i j k hi hj]
  split_ifs <;> rfl

theorem swap_length (hpq : HeapPriorityQueue) (i j : Nat) :
    (hpq.swap i j).arr.length = hpq.arr.length := by
  simp [HeapPriorityQueue.swap]

theorem parent_lt (i : Nat) (h : 0 < i) : HeapPriorityQueue.parent i < i := by
  unfold HeapPriorityQueue.parent
  omega

theorem parent_children (i c : Nat) (h : 0 < i) :
    HeapPriorityQueue.parent i = c ↔ i = 2 * c + 1 ∨ i = 2 * c + 2 := by
  unfold HeapPriorityQueue.parent
  omega

theorem greater_iff (hpq : HeapPriorityQueue) (i j : Nat) :
    hpq.greater i j = true ↔ pAt hpq.arr j < pAt hpq.arr i := by
  simp [HeapPriorityQueue.greater, pAt]

theorem up_heapProp (hpq : HeapPriorityQueue) (hole : Nat) :
    ∀ s : Nat, hole < s → s ≤ hpq.arr.length → UpInv hpq.arr s hole →
    HeapProp (hpq.up hole).arr s := by
  induction hpq, hole using HeapPriorityQueue.up.induct with
  | case1 hpq hole h ih =>
      intro s hls hsl hinv
      obtain ⟨ha, hb⟩ := hinv
      unfold HeapPriorityQueue.up
      rw [dif_pos h]
      have hhole0 : hole ≠ 0 := by
        intro h0
        subst h0
        rw [greater_iff] at h
        simp only [HeapPriorityQueue.parent] at h
        exact absurd h (by simp)
      have hpos : 0 < hole := Nat.pos_of_ne_zero hhole0
      have hplt : HeapPriorityQueue.parent hole < hole := parent_lt hole hpos
      rw [greater_iff] at h
      apply ih s (by omega) (by rw [swap_length]; exact hsl)
      have hswap := fun k => pAt_swap hpq hole (HeapPriorityQueue.parent hole)
        k (by omega) (by omega)
      constructor
      · intro i hi0 his hip
        rw [hswap i, hswap (HeapPriorityQueue.parent i)]
        by_cases hih : i = hole
        · subst hih
          rw [if_neg (by omega), if_pos rfl, if_pos rfl]
          exact le_of_lt h
        · rw [if_neg hip, if_neg hih]
          by_cases hpp : HeapPriorityQueue.parent i = HeapPriorityQueue.parent hole
          · rw [if_pos hpp]
            have := ha i hi0 his hih
            rw [hpp] at this
            exact le_trans this (le_of_lt h)
          · rw [if_neg hpp]
            by_cases hph : HeapPriorityQueue.parent i = hole
            · rw [if_pos hph]
              exact hb hpos i hi0 his hph
            · rw [if_neg hph]
              exact ha i hi0 his hih
      · intro hppos i hi0 his hpi
        have hppnot1 : HeapPriorityQueue.parent (HeapPriorityQueue.parent hole)
            ≠ HeapPriorityQueue.parent hole := by
          have := parent_lt (HeapPriorityQueue.parent hole) hppos
          omega
        have hppnot2 : HeapPriorityQueue.parent (HeapPriorityQueue.parent hole)
            ≠ hole := by
          have := parent_lt (HeapPriorityQueue.parent hole) hppos
          omega
        rw [hswap i, hswap (HeapPriorityQueue.parent
          (HeapPriorityQueue.parent hole))]
        rw [if_neg hppnot1, if_neg hppnot2]
        have hpar_le : pAt hpq.arr (HeapPriorityQueue.parent hole) ≤
            pAt hpq.arr (HeapPriorityQueue.parent
              (HeapPriorityQueue.parent hole)) := by
          apply ha (HeapPriorityQueue.parent hole) hppos (by omega) (by omega)
        by_cases hih : i = hole
        · subst hih
          rw [if_neg (by omega), if_pos rfl]
          exact hpar_le
        · have hiph : i ≠ HeapPriorityQueue.parent hole := by
            have := parent_lt i hi0
            omega
          rw [if_neg hiph, if_neg hih]
          have h1 := ha i hi0 his hih
          rw [hpi] at h1
          exact le_trans h1 hpar_le
  | case2 hpq hole h =>
      intro s hls hsl hinv
      obtain ⟨ha, hb⟩ := hinv
      unfold HeapPriorityQueue.up
      rw [dif_neg h]
      intro i hi0 his
      by_cases hih : i = hole
      · subst hih
        have : ¬ pAt hpq.arr (HeapPriorityQueue.parent i) < pAt hpq.arr i := by
          rw [← greater_iff]
          simpa using h
        omega
      · exact ha i hi0 his hih

theorem largestOf_eq_self (hpq : HeapPriorityQueue) (c : Nat)
    (h : HeapPriorityQueue.largestOf hpq c = c) :
    ∀ i, 0 < i → i < hpq.size → HeapPriorityQueue.parent i = c →
      pAt hpq.arr i ≤ pAt hpq.arr c := by
  intro i hi0 his hpi
  unfold HeapPriorityQueue.largestOf at h
  simp only [HeapPriorityQueue.leftchild, HeapPriorityQueue.rightchild] at h
  by_cases hL : 2 * c + 1 < hpq.size ∧ hpq.greater (2 * c + 1) c = true
  · rw [if_pos hL] at h
    by_cases hR : 2 * c + 2 < hpq.size ∧
        hpq.greater (2 * c + 2) (2 * c + 1) = true
    · rw [if_pos hR] at h
      omega
    · rw [if_neg hR] at h
      omega
  · rw [if_neg hL] at h
    by_cases hR : 2 * c + 2 < hpq.size ∧ hpq.greater (2 * c + 2) c = true
    · rw [if_pos hR] at h
      omega
    · rw [not_and] at hL hR
      rcases (parent_children i c hi0).mp hpi with hich | hich
      · have h3 : ¬ pAt hpq.arr c < pAt hpq.arr (2 * c + 1) := by
          rw [← greater_iff]
          simpa using hL (by omega)
        rw [hich]
        omega
      · have h3 : ¬ pAt hpq.arr c < pAt hpq.arr (2 * c + 2) := by
          rw [← greater_iff]
          simpa using hR (by omega)
        rw [hich]
        omega

theorem largestOf_spec (hpq : HeapPriorityQueue) (c : Nat)
    (h : HeapPriorityQueue.largestOf hpq c ≠ c) :
    HeapPriorityQueue.largestOf hpq c < hpq.size ∧
    c < HeapPriorityQueue.largestOf hpq c ∧
    HeapPriorityQueue.parent (HeapPriorityQueue.largestOf hpq c) = c ∧
    pAt hpq.arr c < pAt hpq.arr (HeapPriorityQueue.largestOf hpq c) ∧
    (∀ i, 0 < i → i < hpq.size → HeapPriorityQueue.parent i = c →
      i ≠ HeapPriorityQueue.largestOf hpq c →
      pAt hpq.arr i ≤ pAt hpq.arr (HeapPriorityQueue.largestOf hpq c)) := by
  have hunf : HeapPriorityQueue.largestOf hpq c =
      if 2 * c + 2 < hpq.size ∧
          hpq.greater (2 * c + 2)
            (if 2 * c + 1 < hpq.size ∧ hpq.greater (2 * c + 1) c = true
             then 2 * c + 1 else c) = true
      then 2 * c + 2
      else if 2 * c + 1 < hpq.size ∧ hpq.greater (2 * c + 1) c = true
        then 2 * c + 1 else c := by
    unfold HeapPriorityQueue.largestOf
    simp only [HeapPriorityQueue.leftchild, HeapPriorityQueue.rightchild]
  by_cases hL : 2 * c + 1 < hpq.size ∧ hpq.greater (2 * c + 1) c = true
  · rw [if_pos hL] at hunf
    rw [hunf] at h ⊢
    have hLg := (greater_iff hpq _ c).mp hL.2
    by_cases hR : 2 * c + 2 < hpq.size ∧
        hpq.greater (2 * c + 2) (2 * c + 1) = true
    · rw [if_pos hR] at h ⊢
      have hRg := (greater_iff hpq _ _).mp hR.2
      refine ⟨hR.1, by omega,
        by rw [parent_children _ c (by omega)]; omega,
        lt_trans hLg hRg, ?_⟩
      intro i hi0 his hpi hineq
      rcases (parent_children i c hi0).mp hpi with hich | hich
      · rw [hich]
        exact le_of_lt hRg
      · omega
    · rw [if_neg hR] at h ⊢
      refine ⟨hL.1, by omega,
        by rw [parent_children _ c (by omega)]; omega, hLg, ?_⟩
      intro i hi0 his hpi hineq
      rcases (parent_children i c hi0).mp hpi with hich | hich
      · omega
      · rw [not_and] at hR
        have h3 : ¬ pAt hpq.arr (2 * c + 1) < pAt hpq.arr (2 * c + 2) := by
          rw [← greater_iff]
          simpa using hR (by omega)
        rw [hich]
        omega
  · rw [if_neg hL] at hunf
    rw [hunf] at h ⊢
    by_cases hR : 2 * c + 2 < hpq.size ∧ hpq.greater (2 * c + 2) c = true
    · rw [if_pos hR] at h ⊢
      have hRg := (greater_iff hpq _ c).mp hR.2
      refine ⟨hR.1, by omega,
        by rw [parent_children _ c (by omega)]; omega, hRg, ?_⟩
      intro i hi0 his hpi hineq
      rcases (parent_children i c hi0).mp hpi with hich | hich
      · rw [not_and] at hL
        have h3 : ¬ pAt hpq.arr c < pAt hpq.arr (2 * c + 1) := by
          rw [← greater_iff]
          simpa using hL (by omega)
        rw [hich]
        omega
      · omega
    · rw [if_neg hR] at h
      exact absurd rfl h

theorem leaf_no_children (hpq : HeapPriorityQueue) (c : Nat)
    (h : hpq.leaf c = true) :
    ∀ i, 0 < i → i < hpq.size → HeapPriorityQueue.parent i ≠ c := by
  intro i hi0 his hpi
  simp only [HeapPriorityQueue.leaf, Bool.and_eq_true, decide_eq_true_eq] at h
  rcases (parent_children i c hi0).mp hpi with hich | hich <;> omega

theorem down_heapProp (hpq : HeapPriorityQueue) (c : Nat) :
    hpq.size ≤ hpq.arr.length → DownInv hpq.arr hpq.size c →
    HeapProp (hpq.down c).arr hpq.size := by
  induction hpq, c using HeapPriorityQueue.down.induct with
  | case1 hpq c hleaf =>
      intro hsl hinv
      unfold HeapPriorityQueue.down
      rw [if_pos hleaf]
      intro i hi0 his
      by_cases hpic : HeapPriorityQueue.parent i = c
      · exact absurd hpic (leaf_no_children hpq c hleaf i hi0 his)
      · exact hinv.1 i hi0 his hpic
  | case2 hpq c hleaf hne ih =>
      intro hsl hinv
      obtain ⟨ha, hb⟩ := hinv
      unfold HeapPriorityQueue.down
      rw [if_neg hleaf, dif_pos hne]
      obtain ⟨hm1, hm2, hm3, hm4, hm5⟩ := largestOf_spec hpq c hne
      have hswap := fun k => pAt_swap hpq c (HeapPriorityQueue.largestOf hpq c)
        k (by omega) (by omega)
      apply ih
      · rw [swap_length]
        exact hsl
      · constructor
        · intro i hi0 his hpim
          rw [hswap i, hswap (HeapPriorityQueue.parent i)]
          by_cases hic : i = c
          · have h0c : 0 < c := by omega
            have hpc_lt : HeapPriorityQueue.parent i < i := parent_lt i hi0
            rw [if_neg (by omega), if_pos hic, if_neg (by omega),
              if_neg (by omega)]
            have hres := hb h0c (HeapPriorityQueue.largestOf hpq c)
              (by omega) hm1 hm3
            rw [hic]
            exact hres
          · by_cases him : i = HeapPriorityQueue.largestOf hpq c
            · rw [if_pos him, him, hm3, if_neg (by omega), if_pos rfl]
              exact le_of_lt hm4
            · rw [if_neg him, if_neg hic]
              by_cases hpc : HeapPriorityQueue.parent i = c
              · rw [if_neg hpim, if_pos hpc]
                exact hm5 i hi0 his hpc him
              · rw [if_neg hpim, if_neg hpc]
                exact ha i hi0 his hpc
        · intro hmpos i hi0 his hpi
          have him : i ≠ HeapPriorityQueue.largestOf hpq c := by
            have := parent_lt i hi0
            omega
          have hic : i ≠ c := by
            have := parent_lt i hi0
            omega
          rw [hswap i, hswap (HeapPriorityQueue.parent
            (HeapPriorityQueue.largestOf hpq c))]
          rw [hm3, if_neg him, if_neg hic, if_neg (by omega), if_pos rfl]
          have h1 := ha i hi0 his (by omega)
          rw [hpi] at h1
          exact h1
  | case3 hpq c hleaf hne =>
      intro hsl hinv
      unfold HeapPriorityQueue.down
      rw [if_neg hleaf, dif_neg hne]
      have heq : HeapPriorityQueue.largestOf hpq c = c := not_not.mp hne
      intro i hi0 his
      by_cases hpic : HeapPriorityQueue.parent i = c
      · rw [hpic]
        exact largestOf_eq_self hpq c heq i hi0 his hpic
      · exact hinv.1 i hi0 his hpic

theorem up_getD_untouched (hpq : HeapPriorityQueue) (hole : Nat) :
    ∀ k, hole < k →
      (hpq.up hole).arr.getD k MinQItem = hpq.arr.getD k MinQItem := by
  induction hpq, hole using HeapPriorityQueue.up.induct with
  | case1 hpq hole h ih =>
      intro k hk
      unfold HeapPriorityQueue.up
      rw [dif_pos h]
      have hp := ih k (lt_trans (by
        apply parent_lt
        by_contra h0
        push_neg at h0
        interval_cases hole
        rw [greater_iff] at h
        simp only [HeapPriorityQueue.parent] at h
        exact absurd h (by simp)) hk)
      rw [hp]
      show ((hpq.arr.set hole _).set (HeapPriorityQueue.parent hole)
        _).getD k MinQItem = _
      have hph : HeapPriorityQueue.parent hole ≤ hole := by
        unfold HeapPriorityQueue.parent
        omega
      rw [getD_set_ne _ _ _ _ _ (by omega), getD_set_ne _ _ _ _ _ (by omega)]
  | case2 hpq hole h =>
      intro k hk
      unfold HeapPriorityQueue.up
      rw [dif_neg h]

theorem down_getD_untouched (hpq : HeapPriorityQueue) (c : Nat) :
    ∀ k, hpq.size ≤ k →
      (hpq.down c).arr.getD k MinQItem = hpq.arr.getD k MinQItem := by
  induction hpq, c using HeapPriorityQueue.down.induct with
  | case1 hpq c hleaf =>
      intro k hk
      unfold HeapPriorityQueue.down
      rw [if_pos hleaf]
  | case2 hpq c hleaf hne ih =>
      intro k hk
      unfold HeapPriorityQueue.down
      rw [if_neg hleaf, dif_pos hne]
      obtain ⟨hm1, hm2, _, _, _⟩ := largestOf_spec hpq c hne
      have hp := ih k (by
        show hpq.size ≤ k
        omega)
      rw [hp]
      show ((hpq.arr.set c _).set (HeapPriorityQueue.largestOf hpq c)
        _).getD k MinQItem = _
      rw [getD_set_ne _ _ _ _ _ (by omega), getD_set_ne _ _ _ _ _ (by omega)]
  | case3 hpq c hleaf hne =>
      intro k hk
      unfold HeapPriorityQueue.down
      rw [if_neg hleaf, dif_neg hne]

theorem hpq_push_inv (hpq : HeapPriorityQueue) (item : QItem)
    (hpq' : HeapPriorityQueue) (hinv : HPQInv hpq)
    (h : hpq.pushOrError item = .ok hpq') : HPQInv hpq' := by
  obtain ⟨hlen, hle, hheap, hbeyond⟩ := hinv
  have hrun : hpq.running = true := by
    by_contra hc
    unfold HeapPriorityQueue.pushOrError at h
    rw [if_pos (by simpa using hc)] at h
    exact absurd h (by simp)
  have hsz : ¬ hpq.size = hpq.sizeLimit := by
    intro hc
    unfold HeapPriorityQueue.pushOrError at h
    rw [if_neg (by simp [hrun]), if_pos hc] at h
    exact absurd h (by simp)
  rw [hpq_push_eq hpq item hrun hsz] at h
  simp only [Except.ok.injEq] at h
  subst h
  obtain ⟨f1, f2, f3, f4⟩ := up_fields
    { hpq with arr := hpq.arr.set hpq.size item } hpq.size
  have hsltN : hpq.size < hpq.arr.length := by omega
  refine ⟨?_, ?_, ?_, ?_⟩
  · show _ = _
    rw [f4, f2]
    simpa using hlen
  · show _ + 1 ≤ _
    rw [f1, f2]
    show hpq.size + 1 ≤ hpq.sizeLimit
    omega
  · show HeapProp _ (_ + 1)
    rw [f1]
    show HeapProp _ (hpq.size + 1)
    apply up_heapProp _ hpq.size (hpq.size + 1) (by omega)
      (by simpa using hsltN)
    constructor
    · intro i hi0 his hih
      have hilt : i < hpq.size := by omega
      show pAt (hpq.arr.set hpq.size item) i ≤ _
      unfold pAt
      rw [getD_set_ne _ _ _ _ _ (by omega),
        getD_set_ne _ _ _ _ _ (by
          have := parent_lt i hi0
          omega)]
      exact hheap i hi0 hilt
    · intro hp0 i hi0 his hpi
      exfalso
      rcases (parent_children i hpq.size hi0).mp hpi with hich | hich <;> omega
  · intro i hige hilt
    have hige2 : (HeapPriorityQueue.up
        { hpq with arr := hpq.arr.set hpq.size item }
        hpq.size).size + 1 ≤ i := hige
    rw [f1] at hige2
    have hige3 : hpq.size + 1 ≤ i := hige2
    have hilt2 : i < (HeapPriorityQueue.up
        { hpq with arr := hpq.arr.set hpq.size item }
        hpq.size).arr.length := hilt
    rw [f4] at hilt2
    have hilt3 : i < hpq.arr.length := by simpa using hilt2
    show (HeapPriorityQueue.up _ hpq.size).arr.getD i MinQItem = MinQItem
    rw [up_getD_untouched _ hpq.size i (by omega)]
    show (hpq.arr.set hpq.size item).getD i MinQItem = MinQItem
    rw [getD_set_ne _ _ _ _ _ (by omega)]
    exact hbeyond i (by omega) hilt3

theorem hpq_pop_inv (hpq : HeapPriorityQueue) (it : QItem)
    (hpq' : HeapPriorityQueue) (hinv : HPQInv hpq)
    (h : hpq.popOrWaitTillClose = .item it hpq') : HPQInv hpq' := by
  obtain ⟨hlen, hle, hheap, hbeyond⟩ := hinv
  have hrun : hpq.running = true := by
    by_contra hc
    unfold HeapPriorityQueue.popOrWaitTillClose at h
    rw [if_pos (by simpa using hc)] at h
    exact absurd h (by simp)
  have hszne : ¬ hpq.size = 0 := by
    intro hc
    unfold HeapPriorityQueue.popOrWaitTillClose at h
    rw [if_neg (by simp [hrun]), if_pos hc] at h
    exact absurd h (by simp)
  rw [hpq_pop_eq hpq hrun hszne] at h
  cases h
  obtain ⟨f1, f2, f3, f4⟩ := down_fields
    { hpq with
      arr := (hpq.arr.set 0 (hpq.arr.getD (hpq.size - 1) MinQItem)).set
        (hpq.size - 1) MinQItem
      size := hpq.size - 1 } 0
  refine ⟨?_, ?_, ?_, ?_⟩
  · rw [f4, f2]
    simpa using hlen
  · rw [f1, f2]
    show hpq.size - 1 ≤ hpq.sizeLimit
    omega
  · rw [f1]
    show HeapProp _ (hpq.size - 1)
    apply down_heapProp
    · show hpq.size - 1 ≤ _
      simp only [List.length_set]
      omega
    · constructor
      · intro i hi0 his hpin
        have his2 : i < hpq.size - 1 := his
        show pAt ((hpq.arr.set 0 _).set (hpq.size - 1) MinQItem) i ≤ _
        unfold pAt
        have hpl := parent_lt i hi0
        rw [getD_set_ne _ _ _ _ _ (by show hpq.size - 1 ≠ i; omega),
          getD_set_ne _ _ _ _ _ (by show (0 : Nat) ≠ i; omega),
          getD_set_ne _ _ _ _ _
            (by show hpq.size - 1 ≠ HeapPriorityQueue.parent i; omega),
          getD_set_ne _ _ _ _ _
            (by show (0 : Nat) ≠ HeapPriorityQueue.parent i; omega)]
        exact hheap i hi0 (by omega)
      · intro h0
        exact absurd h0 (by simp)
  · intro i hige hilt
    rw [f1] at hige
    have hige2 : hpq.size - 1 ≤ i := hige
    rw [f4] at hilt
    have hilt2 : i < hpq.arr.length := by simpa using hilt
    show (HeapPriorityQueue.down _ 0).arr.getD i MinQItem = MinQItem
    rw [down_getD_untouched _ 0 i (by exact hige)]
    show ((hpq.arr.set 0 _).set (hpq.size - 1) MinQItem).getD i
      MinQItem = MinQItem
    by_cases hie : i = hpq.size - 1
    · subst hie
      rw [getD_set_self _ _ _ _ (by simp only [List.length_set]; omega)]
    · rw [getD_set_ne _ _ _ _ _ (fun hc => hie hc.symm),
        getD_set_ne _ _ _ _ _ (by show (0 : Nat) ≠ i; omega)]
      exact hbeyond i (by omega) hilt2

theorem hpq_init_inv (c : Nat) : HPQInv (NewHeapPriorityQueue c) := by
  refine ⟨by simp [NewHeapPriorityQueue], by simp [NewHeapPriorityQueue], ?_, ?_⟩
  · intro i hi0 his
    simp only [NewHeapPriorityQueue] at his
    omega
  · intro i hige hilt
    show (List.replicate c MinQItem).getD i MinQItem = MinQItem
    simp only [NewHeapPriorityQueue, List.length_replicate] at hilt
    exact getD_replicate_of_lt c i MinQItem MinQItem hilt

theorem hpq_reach_inv (hpq : HeapPriorityQueue) (h : HPQReach hpq) :
    HPQInv hpq := by
  induction h with
  | init c => exact hpq_init_inv c
  | push hpq0 item hpq1 _ hstep ih => exact hpq_push_inv hpq0 item hpq1 ih hstep
  | pop hpq0 it hpq1 _ hstep ih => exact hpq_pop_inv hpq0 it hpq1 ih hstep

/-- C4 counterexample: after the successful pushes of priorities 1 then
2 into a fresh `HPQ(2)`, the claimed inequality
`arr[i].P ≥ arr[(i-1)/2].P` fails at `i = 1`: the code keeps a max-heap,
with each entry at most its parent, not at least. -/
theorem c4_heap_invariant_counterexample :
    hpqPushAll (NewHeapPriorityQueue 2) [⟨1, 1⟩, ⟨2, 2⟩] = some hC4 ∧
    ¬ SpecHeapProp hC4.arr hC4.size := by
  constructor
  · simp [hpqPushAll, HeapPriorityQueue.pushOrError, HeapPriorityQueue.up,
      NewHeapPriorityQueue, HeapPriorityQueue.greater,
      HeapPriorityQueue.parent, HeapPriorityQueue.swap, MinQItem, hC4]
  · unfold SpecHeapProp hC4 pAt HeapPriorityQueue.parent
    decide

/-- C4 amended: for HPQ, after any sequence of successful pushes and
pops, for every index `0 < i < size`, `arr[i].Priority ≤
arr[(i-1)/2].Priority`: each element compares at most as large as its
parent (the code maintains a max-heap; the claim's inequality is
reversed). -/
theorem c4_heap_parent_dominance (hpq : HeapPriorityQueue)
    (h : HPQReach hpq) : HeapProp hpq.arr hpq.size :=
  (hpq_reach_inv hpq h).2.2.1

/-- Witness for the amended C4 at a concrete reachable state. -/
theorem c4_heap_parent_dominance_witness :
    HeapProp (NewHeapPriorityQueue 3).arr (NewHeapPriorityQueue 3).size :=
  c4_heap_parent_dominance (NewHeapPriorityQueue 3) (HPQReach.init 3)

theorem set_perm {α : Type} (t : List α) (i : Nat) (a : α) (hi : i < t.length) :
    (t.set i a).Perm (a :: t.eraseIdx i) := by
  induction t generalizing i with
  | nil => simp at hi
  | cons x xs ih =>
      cases i with
      | zero => simp
      | succ n =>
          simp only [List.set_cons_succ, List.eraseIdx_cons_succ]
          have h1 := ih n (by simpa using hi)
          exact (h1.cons x).trans (List.Perm.swap a x _)

theorem set_getD_self {α : Type} (l : List α) (i : Nat) (d : α)
    (h : i < l.length) : l.set i (l.getD i d) = l := by
  rw [List.getD_eq_getElem l d h]
  apply List.ext_getElem
  · simp
  · intro n h1 h2
    rw [List.getElem_set]
    split
    · subst ‹i = n›
      rfl
    · rfl

theorem perm_cons_eraseIdx {α : Type} (l : List α) (i : Nat) (d : α)
    (h : i < l.length) : l.Perm (l.getD i d :: l.eraseIdx i) := by
  have h1 := set_perm l i (l.getD i d) h
  rw [set_getD_self l i d h] at h1
  exact h1

theorem swap_list_perm {α : Type} (d : α) :
    ∀ (t : List α) (i j : Nat), i < t.length → j < t.length →
      ((t.set i (t.getD j d)).set j (t.getD i d)).Perm t := by
  intro t
  induction t with
  | nil =>
      intro i j hi hj
      simp at hi
  | cons x xs ih =>
      intro i j hi hj
      cases i with
      | zero =>
          cases j with
          | zero =>
              simp only [List.getD_cons_zero, List.set_cons_zero]
              exact List.Perm.refl _
          | succ k =>
              have hk : k < xs.length := by simpa using hj
              simp only [List.getD_cons_zero, List.getD_cons_succ,
                List.set_cons_zero, List.set_cons_succ]
              have h1 := set_perm xs k x hk
              have h2 : xs.Perm (xs.getD k d :: xs.eraseIdx k) :=
                perm_cons_eraseIdx xs k d hk
              exact ((h1.cons (xs.getD k d)).trans
                (List.Perm.swap x (xs.getD k d) (xs.eraseIdx k))).trans
                ((h2.cons x).symm)
      | succ m =>
          cases j with
          | zero =>
              have hm : m < xs.length := by simpa using hi
              simp only [List.getD_cons_zero, List.getD_cons_succ,
                List.set_cons_succ, List.set_cons_zero]
              have h1 := set_perm xs m x hm
              have h2 : xs.Perm (xs.getD m d :: xs.eraseIdx m) :=
                perm_cons_eraseIdx xs m d hm
              exact ((h1.cons (xs.getD m d)).trans
                (List.Perm.swap x (xs.getD m d) (xs.eraseIdx m))).trans
                ((h2.cons x).symm)
          | succ k =>
              have hm : m < xs.length := by simpa using hi
              have hk : k < xs.length := by simpa using hj
              simp only [List.getD_cons_succ, List.set_cons_succ]
              exact (ih m k hm hk).cons x

theorem getD_take {α : Type} (l : List α) (s j : Nat) (d : α) (hj : j < s) :
    (l.take s).getD j d = l.getD j d := by
  by_cases hjl : j < l.length
  · rw [List.getD_eq_getElem _ d (by simp; omega), List.getD_eq_getElem l d hjl]
    exact List.getElem_take _
  · rw [List.getD_eq_default _ d (by simp; omega),
      List.getD_eq_default l d (by omega)]

theorem swap_take_perm {α : Type} (l : List α) (i j s : Nat) (d : α)
    (hi : i < s) (hj : j < s) (hs : s ≤ l.length) :
    (((l.set i (l.getD j d)).set j (l.getD i d)).take s).Perm (l.take s) := by
  rw [List.set_take, List.set_take, ← getD_take l s j d hj,
    ← getD_take l s i d hi]
  exact swap_list_perm d (l.take s) i j (by simp; omega) (by simp; omega)

theorem take_succ_set {α : Type} (l : List α) (n : Nat) (x : α)
    (h : n < l.length) : (l.set n x).take (n + 1) = l.take n ++ [x] := by
  rw [List.set_eq_take_cons_drop x h]
  have hlt : (l.take n).length = n := by simp; omega
  have ht := @List.take_append _ (l.take n) (x :: l.drop (n + 1)) 1
  rw [hlt] at ht
  rw [ht]
  rfl

theorem take_pop_perm {α : Type} (l : List α) (s : Nat) (d : α)
    (h1 : 1 ≤ s) (h2 : s ≤ l.length) :
    (l.take s).Perm (l.getD 0 d :: (l.take (s - 1)).set 0 (l.getD (s - 1) d)) := by
  rcases Nat.lt_or_ge s 2 with hs1 | hs2
  · have hs : s = 1 := by omega
    subst hs
    obtain ⟨a, t, rfl⟩ := List.exists_cons_of_ne_nil
      (List.ne_nil_of_length_pos (by omega) : l ≠ [])
    simp
  · obtain ⟨k, hk⟩ : ∃ k, s = k + 2 := ⟨s - 2, by omega⟩
    subst hk
    have hkl : k + 1 < l.length := by omega
    have htk : l.take (k + 2) = l.take (k + 1) ++ [l.getD (k + 1) d] := by
      rw [List.take_succ, List.getElem?_eq_getElem hkl,
        List.getD_eq_getElem l d hkl]
      rfl
    have hu : ∃ b ub, l.take (k + 1) = b :: ub := by
      apply List.exists_cons_of_ne_nil
      apply List.ne_nil_of_length_pos
      simp
      omega
    obtain ⟨b, ub, hbu⟩ := hu
    have hb : b = l.getD 0 d := by
      have h0 := getD_take l (k + 1) 0 d (by omega)
      rw [hbu] at h0
      simpa using h0
    rw [htk]
    show (l.take (k + 1) ++ [l.getD (k + 1) d]).Perm
      (l.getD 0 d :: (l.take (k + 1)).set 0 (l.getD (k + 1) d))
    rw [hbu, List.set_cons_zero, ← hb]
    exact (List.perm_append_singleton _ _).trans
      (List.Perm.swap b (l.getD (k + 1) d) ub)

theorem getD_mem0 {α : Type} (l : List α) (d : α) (h : 0 < l.length) :
    l.getD 0 d ∈ l := by
  rw [List.getD_eq_getElem l d h]
  exact List.getElem_mem h

theorem descList_succ (k : Nat) :
    descList (k + 1) = ((k : Int) + 1) :: descList k := by
  unfold descList
  rw [List.range_succ_eq_map]
  simp only [List.map_cons, List.map_map]
  refine congrArg₂ _ (by push_cast; ring) ?_
  apply List.map_congr_left
  intro a ha
  simp only [Function.comp]
  push_cast
  ring

theorem asc_succ_perm (k : Nat) :
    (ascList (k + 1)).Perm (((k : Int) + 1) :: ascList k) := by
  unfold ascList
  rw [List.range_succ]
  simp only [List.map_append, List.map_cons, List.map_nil]
  exact List.perm_append_singleton _ _

theorem ascList_le (k : Nat) : ∀ p ∈ ascList k, p ≤ (k : Int) := by
  intro p hp
  simp only [ascList, List.mem_map, List.mem_range] at hp
  obtain ⟨j, hj, rfl⟩ := hp
  omega

theorem k_mem_ascList (k : Nat) (h : 0 < k) : (k : Int) ∈ ascList k := by
  simp only [ascList, List.mem_map, List.mem_range]
  exact ⟨k - 1, by omega, by omega⟩

theorem up_take_perm (hpq : HeapPriorityQueue) (hole : Nat) :
    ∀ s, hole < s → s ≤ hpq.arr.length →
      ((hpq.up hole).arr.take s).Perm (hpq.arr.take s) := by
  induction hpq, hole using HeapPriorityQueue.up.induct with
  | case1 hpq hole h ih =>
      intro s hs hl
      unfold HeapPriorityQueue.up
      rw [dif_pos h]
      have hple : HeapPriorityQueue.parent hole ≤ hole := by
        unfold HeapPriorityQueue.parent
        omega
      have h1 := ih s (by omega) (by rw [swap_length]; exact hl)
      have h2 : ((hpq.swap hole (HeapPriorityQueue.parent hole)).arr.take
          s).Perm (hpq.arr.take s) :=
        swap_take_perm hpq.arr hole (HeapPriorityQueue.parent hole) s
          MinQItem hs (by omega) hl
      exact h1.trans h2
  | case2 hpq hole h =>
      intro s hs hl
      unfold HeapPriorityQueue.up
      rw [dif_neg h]

theorem down_take_perm (hpq : HeapPriorityQueue) (c : Nat) :
    hpq.size ≤ hpq.arr.length →
      ((hpq.down c).arr.take hpq.size).Perm (hpq.arr.take hpq.size) := by
  induction hpq, c using HeapPriorityQueue.down.induct with
  | case1 hpq c hleaf =>
      intro hl
      unfold HeapPriorityQueue.down
      rw [if_pos hleaf]
  | case2 hpq c hleaf hne ih =>
      intro hl
      unfold HeapPriorityQueue.down
      rw [if_neg hleaf, dif_pos hne]
      obtain ⟨hm1, hm2, hm3, hm4, hm5⟩ := largestOf_spec hpq c hne
      have ih2 := ih (by
        show hpq.size ≤ _
        rw [swap_length]
        exact hl)
      have ih3 : ((HeapPriorityQueue.down
          (hpq.swap c (HeapPriorityQueue.largestOf hpq c))
          (HeapPriorityQueue.largestOf hpq c)).arr.take hpq.size).Perm
          ((hpq.swap c (HeapPriorityQueue.largestOf hpq c)).arr.take
            hpq.size) := ih2
      have h2 : ((hpq.swap c (HeapPriorityQueue.largestOf hpq c)).arr.take
          hpq.size).Perm (hpq.arr.take hpq.size) :=
        swap_take_perm hpq.arr c (HeapPriorityQueue.largestOf hpq c)
          hpq.size MinQItem (by omega) hm1 hl
      exact ih3.trans h2
  | case3 hpq c hleaf hne =>
      intro hl
      unfold HeapPriorityQueue.down
      rw [if_neg hleaf, dif_neg hne]

theorem hpq_push_contents (hpq : HeapPriorityQueue) (item : QItem)
    (hrun : hpq.running = true) (hsz : ¬ hpq.size = hpq.sizeLimit)
    (hlen : hpq.size < hpq.arr.length) (hpq' : HeapPriorityQueue)
    (h : hpq.pushOrError item = .ok hpq') :
    (heapPriorities hpq').Perm (item.priority :: heapPriorities hpq) := by
  rw [hpq_push_eq hpq item hrun hsz] at h
  simp only [Except.ok.injEq] at h
  subst h
  obtain ⟨f1, f2, f3, f4⟩ := up_fields
    { hpq with arr := hpq.arr.set hpq.size item } hpq.size
  have ha1 : ({ hpq with arr := hpq.arr.set hpq.size item } :
      HeapPriorityQueue).arr = hpq.arr.set hpq.size item := rfl
  have ha2 : ({ hpq with arr := hpq.arr.set hpq.size item } :
      HeapPriorityQueue).size = hpq.size := rfl
  unfold heapPriorities
  show (((HeapPriorityQueue.up
      { hpq with arr := hpq.arr.set hpq.size item } hpq.size).arr.take
      ((HeapPriorityQueue.up
        { hpq with arr := hpq.arr.set hpq.size item } hpq.size).size +
        1)).map (fun it => it.priority)).Perm
    (item.priority :: (hpq.arr.take hpq.size).map (fun it => it.priority))
  rw [f1, ha2]
  have hperm := up_take_perm
    { hpq with arr := hpq.arr.set hpq.size item } hpq.size (hpq.size + 1)
    (by omega)
    (by
      show hpq.size + 1 ≤ (hpq.arr.set hpq.size item).length
      simp only [List.length_set]
      omega)
  have heq : ({ hpq with arr := hpq.arr.set hpq.size item } :
      HeapPriorityQueue).arr.take (hpq.size + 1) =
      hpq.arr.take hpq.size ++ [item] := by
    rw [ha1]
    exact take_succ_set hpq.arr hpq.size item hlen
  refine ((hperm.map (fun it => it.priority)).trans ?_)
  rw [heq]
  simp only [List.map_append, List.map_cons, List.map_nil]
  exact List.perm_append_singleton _ _

theorem hpq_pop_contents (hpq : HeapPriorityQueue) (it : QItem)
    (hpq' : HeapPriorityQueue) (hrun : hpq.running = true)
    (hsz : ¬ hpq.size = 0) (hlen : hpq.size ≤ hpq.arr.length)
    (h : hpq.popOrWaitTillClose = .item it hpq') :
    (heapPriorities hpq).Perm (it.priority :: heapPriorities hpq') := by
  rw [hpq_pop_eq hpq hrun hsz] at h
  cases h
  obtain ⟨f1, f2, f3, f4⟩ := down_fields
    { hpq with
      arr := (hpq.arr.set 0 (hpq.arr.getD (hpq.size - 1) MinQItem)).set
        (hpq.size - 1) MinQItem
      size := hpq.size - 1 } 0
  have hb1 : ({ hpq with
      arr := (hpq.arr.set 0 (hpq.arr.getD (hpq.size - 1) MinQItem)).set
        (hpq.size - 1) MinQItem
      size := hpq.size - 1 } : HeapPriorityQueue).arr =
      (hpq.arr.set 0 (hpq.arr.getD (hpq.size - 1) MinQItem)).set
        (hpq.size - 1) MinQItem := rfl
  have hb2 : ({ hpq with
      arr := (hpq.arr.set 0 (hpq.arr.getD (hpq.size - 1) MinQItem)).set
        (hpq.size - 1) MinQItem
      size := hpq.size - 1 } : HeapPriorityQueue).size = hpq.size - 1 := rfl
  unfold heapPriorities
  rw [f1, hb2]
  have hd := down_take_perm
    { hpq with
      arr := (hpq.arr.set 0 (hpq.arr.getD (hpq.size - 1) MinQItem)).set
        (hpq.size - 1) MinQItem
      size := hpq.size - 1 } 0
    (by
      show hpq.size - 1 ≤ ((hpq.arr.set 0
        (hpq.arr.getD (hpq.size - 1) MinQItem)).set
        (hpq.size - 1) MinQItem).length
      simp only [List.length_set]
      omega)
  have hd2 := hd.map (fun it => it.priority)
  rw [hb1, hb2] at hd2
  have hbt : ((hpq.arr.set 0 (hpq.arr.getD (hpq.size - 1) MinQItem)).set
      (hpq.size - 1) MinQItem).take (hpq.size - 1) =
      (hpq.arr.take (hpq.size - 1)).set 0
        (hpq.arr.getD (hpq.size - 1) MinQItem) := by
    rw [List.set_take, List.set_take, List.set_eq_of_length_le]
    simp only [List.length_set, List.length_take]
    omega
  rw [hbt] at hd2
  have htp := take_pop_perm hpq.arr hpq.size MinQItem (by omega) hlen
  refine (htp.map (fun it => it.priority)).trans ?_
  simp only [List.map_cons]
  exact List.Perm.cons _ hd2.symm

theorem hpq_root_max (hpq : HeapPriorityQueue) (hinv : HPQInv hpq) :
    ∀ p ∈ heapPriorities hpq, p ≤ pAt hpq.arr 0 := by
  obtain ⟨hlen, hle, hheap, _⟩ := hinv
  have key : ∀ i, i < hpq.size → pAt hpq.arr i ≤ pAt hpq.arr 0 := by
    intro i
    induction i using Nat.strong_induction_on with
    | _ i ih =>
        intro hi
        rcases Nat.eq_zero_or_pos i with h0 | hpos
        · subst h0
          exact le_refl _
        · exact le_trans (hheap i hpos hi)
            (ih (HeapPriorityQueue.parent i) (parent_lt i hpos)
              (Nat.lt_trans (parent_lt i hpos) hi))
  intro p hp
  unfold heapPriorities at hp
  rw [List.mem_map] at hp
  obtain ⟨x, hx, rfl⟩ := hp
  rw [List.mem_iff_getElem] at hx
  obtain ⟨i, hilen, rfl⟩ := hx
  have hi : i < hpq.size := by
    simp only [List.length_take] at hilen
    omega
  have hx2 : (hpq.arr.take hpq.size)[i] = hpq.arr.getD i MinQItem := by
    rw [List.getD_eq_getElem hpq.arr MinQItem (by omega)]
    exact List.getElem_take _
  rw [hx2]
  exact key i hi

theorem hpq_push_step (q : HeapPriorityQueue) (item : QItem)
    (hinv : HPQInv q) (hrun : q.running = true)
    (hsz : ¬ q.size = q.sizeLimit) :
    ∃ q', q.pushOrError item = .ok q' ∧ q'.size = q.size + 1 ∧
      q'.sizeLimit = q.sizeLimit ∧ q'.running = true ∧ HPQInv q' ∧
      (heapPriorities q').Perm (item.priority :: heapPriorities q) := by
  have hlen : q.size < q.arr.length := by
    obtain ⟨h1, h2, _, _⟩ := hinv
    omega
  have h := hpq_push_eq q item hrun hsz
  obtain ⟨g1, g2, g3, g4⟩ := hpq_push_fields q item _ h
  exact ⟨_, h, g1, g2, by rw [g3, hrun], hpq_push_inv q item _ hinv h,
    hpq_push_contents q item hrun hsz hlen _ h⟩

theorem hpq_pop_step (q : HeapPriorityQueue) (hinv : HPQInv q)
    (hrun : q.running = true) (hsz : ¬ q.size = 0) :
    ∃ it q', q.popOrWaitTillClose = .item it q' ∧
      it.priority = pAt q.arr 0 ∧ q'.size = q.size - 1 ∧
      q'.sizeLimit = q.sizeLimit ∧ q'.running = true ∧ HPQInv q' ∧
      (heapPriorities q).Perm (it.priority :: heapPriorities q') := by
  have hlen : q.size ≤ q.arr.length := by
    obtain ⟨h1, h2, _, _⟩ := hinv
    omega
  have h := hpq_pop_eq q hrun hsz
  obtain ⟨f1, f2, f3, f4⟩ := down_fields
    { q with
      arr := (q.arr.set 0 (q.arr.getD (q.size - 1) MinQItem)).set
        (q.size - 1) MinQItem
      size := q.size - 1 } 0
  refine ⟨q.arr.getD 0 MinQItem, _, h, rfl, ?_, ?_, ?_,
    hpq_pop_inv q _ _ hinv h, hpq_pop_contents q _ _ hrun hsz hlen h⟩
  · exact f1.trans rfl
  · exact f2.trans rfl
  · rw [f3]
    exact hrun

theorem hpqPushAll_cons_ok (q : HeapPriorityQueue) (it : QItem)
    (rest : List QItem) (q2 : HeapPriorityQueue)
    (h : q.pushOrError it = .ok q2) :
    hpqPushAll q (it :: rest) = hpqPushAll q2 rest := by
  simp only [hpqPushAll]
  rw [h]

theorem hpqPopN_succ_item (q : HeapPriorityQueue) (k : Nat) (it : QItem)
    (q2 : HeapPriorityQueue) (h : q.popOrWaitTillClose = .item it q2) :
    hpqPopN q (k + 1) = (match hpqPopN q2 k with
      | some (its, q3) => some (it :: its, q3)
      | none => none) := by
  simp only [hpqPopN]
  rw [h]

theorem hpq_fill : ∀ (L : List QItem) (q : HeapPriorityQueue), HPQInv q →
    q.running = true → q.size + L.length ≤ q.sizeLimit →
    ∃ q', hpqPushAll q L = some q' ∧ HPQInv q' ∧ q'.running = true ∧
      q'.sizeLimit = q.sizeLimit ∧ q'.size = q.size + L.length ∧
      (heapPriorities q').Perm
        (L.map (fun it => it.priority) ++ heapPriorities q) := by
  intro L
  induction L with
  | nil =>
      intro q hinv hrun hcap
      exact ⟨q, rfl, hinv, hrun, rfl, by simp, by simp⟩
  | cons it rest ih =>
      intro q hinv hrun hcap
      have hne : ¬ q.size = q.sizeLimit := by
        simp only [List.length_cons] at hcap
        omega
      obtain ⟨q2, hpush, hs2, hl2, hr2, hinv2, hc2⟩ :=
        hpq_push_step q it hinv hrun hne
      obtain ⟨q', hall, hinv', hrun', hsl', hsz', hc'⟩ := ih q2 hinv2 hr2 (by
        rw [hs2, hl2]
        simp only [List.length_cons] at hcap
        omega)
      refine ⟨q', ?_, hinv', hrun', by rw [hsl', hl2], ?_, ?_⟩
      · rw [hpqPushAll_cons_ok q it rest q2 hpush]
        exact hall
      · rw [hsz', hs2]
        simp only [List.length_cons]
        omega
      · refine hc'.trans ?_
        refine (List.Perm.append_left (rest.map (fun it => it.priority))
          hc2).trans ?_
        simp only [List.map_cons]
        exact List.perm_middle

theorem hpq_drain : ∀ (k : Nat) (q : HeapPriorityQueue), HPQInv q →
    q.running = true → q.size = k → (heapPriorities q).Perm (ascList k) →
    ∃ outs q', hpqPopN q k = some (outs, q') ∧
      outs.map (fun it => it.priority) = descList k ∧
      HPQInv q' ∧ q'.running = true ∧ q'.sizeLimit = q.sizeLimit ∧
      q'.size = 0 := by
  intro k
  induction k with
  | zero =>
      intro q hinv hrun hsz hperm
      exact ⟨[], q, rfl, rfl, hinv, hrun, rfl, hsz⟩
  | succ k ih =>
      intro q hinv hrun hsz hperm
      obtain ⟨it, q2, hpop, hitp, hsz2, hsl2, hrun2, hinv2, hc2⟩ :=
        hpq_pop_step q hinv hrun (by omega)
      have hsize0 : 0 < q.size := by omega
      have hlen : q.size ≤ q.arr.length := by
        obtain ⟨h1, h2, _, _⟩ := hinv
        omega
      have hmem : pAt q.arr 0 ∈ heapPriorities q := by
        unfold heapPriorities
        rw [List.mem_map]
        refine ⟨q.arr.getD 0 MinQItem, ?_, rfl⟩
        have h0 : (q.arr.take q.size).getD 0 MinQItem =
            q.arr.getD 0 MinQItem := getD_take q.arr q.size 0 MinQItem hsize0
        rw [← h0]
        apply getD_mem0
        simp only [List.length_take]
        omega
      have htop : pAt q.arr 0 = (k : Int) + 1 := by
        have hup : pAt q.arr 0 ≤ ((k + 1 : Nat) : Int) :=
          ascList_le (k + 1) _ ((hperm.mem_iff).mp hmem)
        have hdown : ((k + 1 : Nat) : Int) ≤ pAt q.arr 0 :=
          hpq_root_max q hinv _
            ((hperm.mem_iff).mpr (k_mem_ascList (k + 1) (by omega)))
        push_cast at hup hdown
        omega
      have hc3 : (heapPriorities q2).Perm (ascList k) := by
        have h4 : (it.priority :: heapPriorities q2).Perm
            (((k : Int) + 1) :: ascList k) :=
          hc2.symm.trans (hperm.trans (asc_succ_perm k))
        rw [hitp, htop] at h4
        exact h4.cons_inv
      obtain ⟨outs, q', hpopn, houts, hinv', hrun', hsl', hsz'⟩ :=
        ih q2 hinv2 hrun2 (by omega) hc3
      refine ⟨it :: outs, q', ?_, ?_, hinv', hrun', by rw [hsl', hsl2],
        hsz'⟩
      · rw [hpqPopN_succ_item q k it q2 hpop, hpopn]
      · simp only [List.map_cons]
        rw [houts, hitp, htop, descList_succ]

/-- C5: with HPQ capacity 100, pushing any 100 items whose priorities
are a permutation of 1..100 (all pushes succeeding), then popping 100
times, yields priorities in strictly descending order 100, 99, …, 1;
refilling the resulting queue with the same items and draining again
yields the same descending output. -/
theorem c5_hpq_sort (L : List QItem) (hlen : L.length = 100)
    (hperm : (L.map (fun it => it.priority)).Perm (ascList 100)) :
    ∃ q1 outs1 q2 q3 outs2 q4,
      hpqPushAll (NewHeapPriorityQueue 100) L = some q1 ∧
      hpqPopN q1 100 = some (outs1, q2) ∧
      outs1.map (fun it => it.priority) = descList 100 ∧
      hpqPushAll q2 L = some q3 ∧
      hpqPopN q3 100 = some (outs2, q4) ∧
      outs2.map (fun it => it.priority) = descList 100 := by
  have hinv0 : HPQInv (NewHeapPriorityQueue 100) := hpq_init_inv 100
  obtain ⟨q1, h1, hinv1, hrun1, hsl1, hsize1, hc1⟩ :=
    hpq_fill L (NewHeapPriorityQueue 100) hinv0 rfl (by
      show 0 + L.length ≤ 100
      omega)
  have hc1b : (heapPriorities q1).Perm (ascList 100) := by
    rw [show heapPriorities (NewHeapPriorityQueue 100) = [] from rfl,
      List.append_nil] at hc1
    exact hc1.trans hperm
  obtain ⟨outs1, q2, h2, hd1, hinv2, hrun2, hsl2, hsize2⟩ :=
    hpq_drain 100 q1 hinv1 hrun1 (by
      rw [hsize1]
      show 0 + L.length = 100
      omega) hc1b
  have hq2cap : q2.size + L.length ≤ q2.sizeLimit := by
    rw [hsize2, hsl2, hsl1]
    show 0 + L.length ≤ 100
    omega
  obtain ⟨q3, h3, hinv3, hrun3, hsl3, hsize3, hc3⟩ :=
    hpq_fill L q2 hinv2 hrun2 hq2cap
  have hq2c : heapPriorities q2 = [] := by
    unfold heapPriorities
    rw [hsize2]
    simp
  have hc3b : (heapPriorities q3).Perm (ascList 100) := by
    rw [hq2c, List.append_nil] at hc3
    exact hc3.trans hperm
  obtain ⟨outs2, q4, h4, hd2, hinv4, hrun4, hsl4, hsize4⟩ :=
    hpq_drain 100 q3 hinv3 hrun3 (by rw [hsize3, hsize2]; omega) hc3b
  exact ⟨q1, outs1, q2, q3, outs2, q4, h1, h2, hd1, h3, h4, hd2⟩

/-- Witness for C5: the concrete input `c5Items` (priorities 1..100 in
ascending order) satisfies the hypotheses, and the double fill-and-drain
behaves as stated. -/
theorem c5_hpq_sort_witness :
    c5Items.length = 100 ∧
    (c5Items.map (fun it => it.priority)).Perm (ascList 100) ∧
    (∃ q1 outs1 q2 q3 outs2 q4,
      hpqPushAll (NewHeapPriorityQueue 100) c5Items = some q1 ∧
      hpqPopN q1 100 = some (outs1, q2) ∧
      outs1.map (fun it => it.priority) = descList 100 ∧
      hpqPushAll q2 c5Items = some q3 ∧
      hpqPopN q3 100 = some (outs2, q4) ∧
      outs2.map (fun it => it.priority) = descList 100) :=
  ⟨rfl, (show c5Items.map (fun it => it.priority) = ascList 100 from rfl) ▸
      List.Perm.refl _,
    c5_hpq_sort c5Items rfl
      ((show c5Items.map (fun it => it.priority) = ascList 100 from rfl) ▸
        List.Perm.refl _)⟩

/-- Witness for C3: the invariants hold at the concrete freshly
constructed queues `rrW` and `pqW`. -/
theorem c3_multiqueue_invariants_witness :
    (rrW.size = rrW.numberOfTasksInEachQueue.sum ∧
      (rrW.currentPriorityToRetrieve = -1 ↔ rrW.size = 0) ∧
      (0 < rrW.size → 0 < rrW.numberOfTasksInEachQueue.getD
        rrW.currentPriorityToRetrieve.toNat 0)) ∧
    pqW.size = pqW.numberOfTasksInEachQueue.sum :=
  ⟨c3_multiqueue_invariants.1 rrW (RRReach.init 4 3 rrW rfl),
   c3_multiqueue_invariants.2 pqW (PQReach.init 4 3 pqW rfl)⟩

end Prioritize
